import Mathlib

/-!
Verification development for the `ci-failure-analyzer` GitHub Action
(`src/lib/error-detector.js`, `src/lib/pattern-tracker.js`, `src/lib/utils.js`,
and the driver embedded at the bottom of `src/README.md`).

The JavaScript code is regex-heavy, so the embedding starts with a small
executable model of the fragment of JavaScript regular expressions the
repository actually uses: character classes, literal characters, counted
repetition of a character class (which covers `*`, `+`, `?`, `{m,n}` as
used in the source), concatenation, alternation, the anchors `^`/`$`
(with and without the `m` flag), and the word-boundary assertion `\b`.
Matching is leftmost-first with greedy repetition, exactly JavaScript's
backtracking order, so the match extents used by `String.prototype.replace`
agree with the engine's.

Strings are modelled as their lists of characters (`String.data`), and
JavaScript numbers as `Int`/`Nat` (all arithmetic in the source is exact
integer arithmetic well inside the float53 range). `Date` values parsed
from issue bodies are modelled as `Option Int` (milliseconds since epoch,
`none` for JavaScript's `Invalid Date`, whose comparisons are all false).
-/

namespace CIFA

/-! ## JavaScript character predicates -/

/-- JavaScript `\d`. -/
def isJsDigit (c : Char) : Bool := decide ('0' ≤ c) && decide (c ≤ '9')

/-- JavaScript `\w` (`[A-Za-z0-9_]`). -/
def isJsWord (c : Char) : Bool :=
  (decide ('a' ≤ c) && decide (c ≤ 'z')) || (decide ('A' ≤ c) && decide (c ≤ 'Z')) ||
  isJsDigit c || decide (c = '_')

/-- JavaScript line terminators (`\n`, `\r`, U+2028, U+2029); these are what
`^`/`$` recognise under the `m` flag and what `.` refuses to match. -/
def isLineTerm (c : Char) : Bool :=
  decide (c = '\n') || decide (c = '\r') || decide (c = '\u2028') || decide (c = '\u2029')

/-- JavaScript `\s`: WhiteSpace plus LineTerminator code points. -/
def isJsSpace (c : Char) : Bool :=
  decide (c = ' ') || decide (c = '\t') || decide (c = '\n') || decide (c = '\r') ||
  decide (c = '\u000b') || decide (c = '\u000c') || decide (c = '\u00a0') ||
  decide (c = '\u1680') ||
  (decide ('\u2000' ≤ c) && decide (c ≤ '\u200a')) ||
  decide (c = '\u2028') || decide (c = '\u2029') || decide (c = '\u202f') ||
  decide (c = '\u205f') || decide (c = '\u3000') || decide (c = '\ufeff')

/-- Case-insensitive character comparison (the `i` flag; ASCII folding is
all the source's patterns need). -/
def ciCharEq (ci : Bool) (pat c : Char) : Bool :=
  if ci then pat.toLower = c.toLower else pat = c

/-! ## Regex syntax -/

/-- Character classes appearing in the source's patterns. -/
inductive CC where
  | any                      -- `.`  (anything but a line terminator)
  | digit                    -- `\d`
  | space                    -- `\s`
  | word                     -- `\w`
  | nonspace                 -- `\S`
  | lit (c : Char)           -- a literal character
  | rng (lo hi : Char)       -- a range such as `[A-Z]`
  | cor (a b : CC)           -- union inside `[...]`
deriving DecidableEq

/-- Test a character against a class, honouring the `i` flag for literals
and ranges (JavaScript canonicalises both the pattern and the input). -/
def ccTest (ci : Bool) : CC → Char → Bool
  | .any, c => !(isLineTerm c)
  | .digit, c => isJsDigit c
  | .space, c => isJsSpace c
  | .word, c => isJsWord c
  | .nonspace, c => !(isJsSpace c)
  | .lit p, c => ciCharEq ci p c
  | .rng lo hi, c =>
      (decide (lo ≤ c) && decide (c ≤ hi)) ||
      (ci && ((decide (lo ≤ c.toLower) && decide (c.toLower ≤ hi)) ||
              (decide (lo ≤ c.toUpper) && decide (c.toUpper ≤ hi))))
  | .cor a b, c => ccTest ci a c || ccTest ci b c

/-- Regexes: the fragment used by the source. Repetition is restricted to a
character class — every `*`, `+`, `?`, `{m,n}` in the source's patterns has a
single character or class as its body — which keeps backtracking linear. -/
inductive RE where
  | eps
  | cc (c : CC)
  | rep (c : CC) (lo : Nat) (hi : Option Nat)   -- `c{lo,hi}` / `c*` / `c+` / `c?`
  | cat (a b : RE)
  | alt (a b : RE)
  | bol                                          -- `^`
  | eol                                          -- `$`
  | wb                                           -- `\b`
deriving DecidableEq

/-- Concatenation of a list of regexes. -/
def cats (rs : List RE) : RE := rs.foldr RE.cat RE.eps

/-- The regex matching a literal string. -/
def strRe (s : String) : RE := cats (s.data.map (fun c => RE.cc (CC.lit c)))

/-- `c*`. -/
def starRe (c : CC) : RE := RE.rep c 0 none

/-- `c+`. -/
def plusRe (c : CC) : RE := RE.rep c 1 none

/-- `c?`. -/
def optC (c : CC) : RE := RE.rep c 0 (some 1)

/-- `(?:r)?` for a compound body. -/
def optRe (r : RE) : RE := RE.alt r RE.eps

/-! ## Matching

`mAt` matches a regex at the current position via a continuation.  The
`Option Char` argument is the character just before the position (`none` at
the start of input), needed by `^` and `\b`. -/

/-- States reachable by consuming 0, 1, 2, … characters of class `c`
(in that order): `(prev, suffix)` pairs.  Stops at the first character not
in the class or after `n` characters. -/
def ccStates (ci : Bool) (c : CC) : Nat → Option Char → List Char → List (Option Char × List Char)
  | 0, p, s => [(p, s)]
  | n + 1, p, s =>
      (p, s) :: (match s with
        | [] => []
        | h :: t => if ccTest ci c h then ccStates ci c n (some h) t else [])

/-- Pair each element with its index, starting at `i`. -/
def withIdx (i : Nat) : List α → List (Nat × α)
  | [] => []
  | a :: l => (i, a) :: withIdx (i + 1) l

/-- Word-boundary test: the position between `p` (char before, if any) and
the head of `s` (if any) is a `\b` boundary. -/
def atWb (p : Option Char) (s : List Char) : Bool :=
  (match p with | none => false | some c => isJsWord c) !=
  (match s with | [] => false | h :: _ => isJsWord h)

/-- Backtracking matcher in JavaScript's order: alternation tries the left
branch first, repetition is greedy (most characters first). -/
def mAt (ci m : Bool) : RE → Option Char → List Char → (Option Char → List Char → Option (List Char)) → Option (List Char)
  | .eps, p, s, k => k p s
  | .cc c, _, s, k =>
      match s with
      | [] => none
      | h :: t => if ccTest ci c h then k (some h) t else none
  | .rep c lo hi, p, s, k =>
      let bound := match hi with | some b => b | none => s.length
      ((withIdx 0 (ccStates ci c bound p s)).reverse).findSome?
        (fun e => if lo ≤ e.1 then k e.2.1 e.2.2 else none)
  | .cat a b, p, s, k => mAt ci m a p s (fun p2 s2 => mAt ci m b p2 s2 k)
  | .alt a b, p, s, k =>
      match mAt ci m a p s k with
      | some r => some r
      | none => mAt ci m b p s k
  | .bol, p, s, k =>
      if (match p with | none => true | some c => m && isLineTerm c) then k p s else none
  | .eol, p, s, k =>
      if (match s with | [] => true | h :: _ => m && isLineTerm h) then k p s else none
  | .wb, p, s, k => if atWb p s then k p s else none

/-- Match the regex at exactly this position; returns the suffix after the
match (JavaScript's first, i.e. greedy-leftmost, match extent). -/
def matchHere (ci m : Bool) (re : RE) (p : Option Char) (s : List Char) : Option (List Char) :=
  mAt ci m re p s (fun _ s2 => some s2)

/-- Scan left to right for the first matching position, like
`RegExp.prototype.exec`.  Returns `(reversed prefix, matched, rest)`. -/
def findMatchFrom (ci m : Bool) (re : RE) : List Char → List Char → Option (List Char × List Char × List Char)
  | preRev, suf =>
      match matchHere ci m re preRev.head? suf with
      | some rest => some (preRev, suf.take (suf.length - rest.length), rest)
      | none =>
          match suf with
          | [] => none
          | h :: t => findMatchFrom ci m re (h :: preRev) t

/-- `RegExp.prototype.test` on a list of characters. -/
def reTestL (ci m : Bool) (re : RE) (s : List Char) : Bool :=
  (findMatchFrom ci m re [] s).isSome

/-- `RegExp.prototype.test`. -/
def reTest (ci m : Bool) (re : RE) (s : String) : Bool := reTestL ci m re s.data

/-! ## `String.prototype.replace` -/

/-- Substitution patterns in a replacement string: `$$`, `$&`, `` $` ``,
`$'` (group references do not occur: none of the patterns the source uses
in a `replace` position has a capture group). -/
def processReplGo (mt pre post : List Char) : List Char → List Char
  | [] => []
  | '$' :: rest =>
      match rest with
      | [] => ['$']
      | c :: t =>
          if c = '$' then '$' :: processReplGo mt pre post t
          else if c = '&' then mt ++ processReplGo mt pre post t
          else if c = Char.ofNat 96 then pre ++ processReplGo mt pre post t
          else if c = Char.ofNat 39 then post ++ processReplGo mt pre post t
          else '$' :: c :: processReplGo mt pre post t
  | c :: t => c :: processReplGo mt pre post t

/-- `s.replace(re, repl)` for a regex without the `g` flag: replace the
first match only. -/
def replaceFirstL (ci m : Bool) (re : RE) (repl s : List Char) : List Char :=
  match findMatchFrom ci m re [] s with
  | some (pR, mt, rest) => pR.reverse ++ processReplGo mt pR.reverse rest repl ++ rest
  | none => s

/-- Worker for `replace` with the `g` flag: repeatedly find the next match
(starting after the previous one; a zero-length match advances by one
character, as `lastIndex` does).  Every recursive call strictly shortens
the suffix (`findMatchFrom_rest_length`), so the structural fuel — one more
than the suffix length at the entry point — is never exhausted. -/
def replaceAllGo (ci m : Bool) (re : RE) (repl : List Char) : Nat → List Char → List Char → List Char
  | 0, _, suf => suf
  | fuel + 1, preRev, suf =>
      match findMatchFrom ci m re preRev suf with
      | none => suf
      | some (pR, mt, rest) =>
          let skipped := suf.take (suf.length - (mt.length + rest.length))
          if mt = [] then
            match rest with
            | [] => skipped ++ processReplGo mt pR.reverse rest repl
            | h :: t =>
                skipped ++ processReplGo mt pR.reverse rest repl ++
                  h :: replaceAllGo ci m re repl fuel (h :: pR) t
          else
            skipped ++ processReplGo mt pR.reverse rest repl ++
              replaceAllGo ci m re repl fuel (mt.reverse ++ pR) rest

/-- `s.replace(re, repl)` for a `g`-flagged regex. -/
def replaceAllL (ci m : Bool) (re : RE) (repl s : List Char) : List Char :=
  replaceAllGo ci m re repl (s.length + 1) [] s

/-! ## `src/lib/utils.js` — `normalize` -/

/-- `/^﻿?\d{4}-\d{2}-\d{2}T\d{2}:\d{2}:\d{2}\.\d+Z\s+/g` -/
def tsStampRe : RE :=
  cats [RE.bol, optC (.lit '﻿'),
    RE.rep .digit 4 (some 4), RE.cc (.lit '-'), RE.rep .digit 2 (some 2),
    RE.cc (.lit '-'), RE.rep .digit 2 (some 2), RE.cc (.lit 'T'),
    RE.rep .digit 2 (some 2), RE.cc (.lit ':'), RE.rep .digit 2 (some 2),
    RE.cc (.lit ':'), RE.rep .digit 2 (some 2), RE.cc (.lit '.'),
    plusRe .digit, RE.cc (.lit 'Z'), plusRe .space]

/-- `[0-9a-fA-F]`. -/
def hexAnyCC : CC := .cor (.rng '0' '9') (.cor (.rng 'a' 'f') (.rng 'A' 'F'))

/-- `[0-9a-f]`. -/
def hexLowCC : CC := .cor (.rng '0' '9') (.rng 'a' 'f')

/-- `/\b0x[0-9a-fA-F]+\b/g` -/
def hexLitRe : RE := cats [RE.wb, RE.cc (.lit '0'), RE.cc (.lit 'x'), plusRe hexAnyCC, RE.wb]

/-- `/\b[0-9a-f]{7,40}\b/g` -/
def shaTokenRe : RE := cats [RE.wb, RE.rep hexLowCC 7 (some 40), RE.wb]

/-- `/:\d+:\d+/g` -/
def lineColRe : RE := cats [RE.cc (.lit ':'), plusRe .digit, RE.cc (.lit ':'), plusRe .digit]

/-- `/:\d+/g` -/
def lineOnlyRe : RE := cats [RE.cc (.lit ':'), plusRe .digit]

/-- `String.prototype.trim` (removes the same WhiteSpace/LineTerminator set
as `\s`). -/
def jsTrimL (s : List Char) : List Char :=
  ((s.dropWhile isJsSpace).reverse.dropWhile isJsSpace).reverse

/-- `normalize` from `src/lib/utils.js` (the argument is already a string,
so the `?? ""`/`toString()` coercions are identities). -/
def normalize (line : String) : String :=
  ⟨jsTrimL
    (replaceAllL false false lineOnlyRe ":<line>".data
      (replaceAllL false false lineColRe ":<line>:<col>".data
        (replaceAllL false false shaTokenRe "…sha…".data
          (replaceAllL false false hexLitRe "0x…".data
            (replaceAllL false false tsStampRe [] line.data)))))⟩

/-! ## `src/lib/error-detector.js` — step lookup -/

/-- One entry of the `stepStarts` array built by `buildStepIndex`:
`{ idx, name }`. -/
structure Boundary where
  idx : Nat
  name : String
deriving DecidableEq

/-- The `while (lo <= hi)` loop of `findStepForLineIndex`; returns the final
value of `hi`.  JavaScript's `(lo + hi) >> 1` is an arithmetic (floor)
shift, which is `/ 2` on `Int` here.  Each iteration shrinks `hi + 1 - lo`
by at least one, so the structural fuel (interval width plus one at the
entry point) is never exhausted. -/
def bsearchLoop (ss : List Boundary) (lineIndex : Nat) : Nat → Int → Int → Int
  | 0, _, hi => hi
  | fuel + 1, lo, hi =>
      if lo ≤ hi then
        let mid := (lo + hi) / 2
        if (ss.getD mid.toNat ⟨0, ""⟩).idx ≤ lineIndex then
          bsearchLoop ss lineIndex fuel (mid + 1) hi
        else
          bsearchLoop ss lineIndex fuel lo (mid - 1)
      else hi

/-- `findStepForLineIndex(stepStarts, lineIndex)`: binary search for the
closest boundary at or before `lineIndex`; note the `Math.max(0, hi)` clamp
on the final index. -/
def findStepForLineIndex (ss : List Boundary) (lineIndex : Nat) : String :=
  if ss.isEmpty then "Unknown step"
  else
    let hi := bsearchLoop ss lineIndex (ss.length + 1) 0 ((ss.length : Int) - 1)
    (ss.getD (max 0 hi).toNat ⟨0, ""⟩).name

/-! ## `src/lib/error-detector.js` — the rule table of
`pickFirstMeaningfulError`.  Each constant is one regex literal from the
source, in declaration order; the `i` flag is recorded alongside in
`builtinRules`. -/

/-- `/^\s*\d+:\d+\s+(error|warning)\s+.+\s+.+$/i` -/
def eslintCompactRe : RE :=
  cats [RE.bol, starRe .space, plusRe .digit, RE.cc (.lit ':'), plusRe .digit,
    plusRe .space, RE.alt (strRe "error") (strRe "warning"), plusRe .space,
    plusRe .any, plusRe .space, plusRe .any, RE.eol]

/-- `/\bESLint\b.*(found|problems?)/i` -/
def eslintSummaryRe : RE :=
  cats [RE.wb, strRe "ESLint", RE.wb, starRe .any,
    RE.alt (strRe "found") (RE.cat (strRe "problem") (optC (.lit 's')))]

/-- `/eslint(?:\.js)?:\s+.*(error|failed)/i` -/
def eslintCliRe : RE :=
  cats [strRe "eslint", optRe (strRe ".js"), RE.cc (.lit ':'), plusRe .space,
    starRe .any, RE.alt (strRe "error") (strRe "failed")]

/-- `/error TS\d+:/i` -/
def tsErrorRe : RE := cats [strRe "error TS", plusRe .digit, RE.cc (.lit ':')]

/-- `/Type error:|TS\d{3,5}\b/i` -/
def tsTypeErrorRe : RE :=
  RE.alt (strRe "Type error:") (cats [strRe "TS", RE.rep .digit 3 (some 5), RE.wb])

/-- `/\bnpm ERR!\b/i` -/
def npmErrRe : RE := cats [RE.wb, strRe "npm ERR!", RE.wb]

/-- `/\bERR_PNPM_\w+\b/i` -/
def pnpmErrRe : RE := cats [RE.wb, strRe "ERR_PNPM_", plusRe .word, RE.wb]

/-- `/\byarn (run|install)\b.*(error|failed)/i` -/
def yarnRe : RE :=
  cats [RE.wb, strRe "yarn ", RE.alt (strRe "run") (strRe "install"), RE.wb,
    starRe .any, RE.alt (strRe "error") (strRe "failed")]

/-- `/^(FAIL|●)\b/` -/
def jestFailRe : RE := cats [RE.bol, RE.alt (strRe "FAIL") (strRe "●"), RE.wb]

/-- `/(Test Suites: \d+ failed|AssertionError)/` -/
def jestSummaryRe : RE :=
  RE.alt (cats [strRe "Test Suites: ", plusRe .digit, strRe " failed"])
    (strRe "AssertionError")

/-- `/\b(vite|webpack)\b.*(error|failed)/i` -/
def bundlerRe : RE :=
  cats [RE.wb, RE.alt (strRe "vite") (strRe "webpack"), RE.wb, starRe .any,
    RE.alt (strRe "error") (strRe "failed")]

/-- `/\bBuild failed\b/i` -/
def buildFailedRe : RE := cats [RE.wb, strRe "Build failed", RE.wb]

/-- `/(failed to solve|executor failed|ERROR: failed|docker buildx|#\d+ ERROR)/i` -/
def dockerRe : RE :=
  RE.alt (strRe "failed to solve")
    (RE.alt (strRe "executor failed")
      (RE.alt (strRe "ERROR: failed")
        (RE.alt (strRe "docker buildx")
          (cats [RE.cc (.lit '#'), plusRe .digit, strRe " ERROR"]))))

/-- `/FAILED\s+\S+\.py/i` -/
def pytestFailedRe : RE :=
  cats [strRe "FAILED", plusRe .space, plusRe .nonspace, strRe ".py"]

/-- `/ERROR\s+\S+\.py/i` -/
def pytestErrorRe : RE :=
  cats [strRe "ERROR", plusRe .space, plusRe .nonspace, strRe ".py"]

/-- `/\.py:\d+: error:/i` -/
def mypyRe : RE := cats [strRe ".py:", plusRe .digit, strRe ": error:"]

/-- `/\.py:\d+:\d+:\s+[A-Z]\d+/i` -/
def ruffRe : RE :=
  cats [strRe ".py:", plusRe .digit, RE.cc (.lit ':'), plusRe .digit,
    RE.cc (.lit ':'), plusRe .space, RE.cc (.rng 'A' 'Z'), plusRe .digit]

/-- `/ERROR:.*pip/i` -/
def pipRe : RE := cats [strRe "ERROR:", starRe .any, strRe "pip"]

/-- The literal pattern `--- FAIL:` (flags `i`). -/
def goFailRe : RE := strRe "--- FAIL:"

/-- `/\.go:\d+:\d+:/i` -/
def goPosRe : RE :=
  cats [strRe ".go:", plusRe .digit, RE.cc (.lit ':'), plusRe .digit, RE.cc (.lit ':')]

/-- `/cannot find package/i` -/
def goPkgRe : RE := strRe "cannot find package"

/-- `/\bundefined:/i` -/
def goUndefRe : RE := cats [RE.wb, strRe "undefined:"]

/-- `/error:\s+.*java/i` -/
def javaErrorRe : RE := cats [strRe "error:", plusRe .space, starRe .any, strRe "java"]

/-- `/\bjavac\b.*error/i` -/
def javacRe : RE := cats [RE.wb, strRe "javac", RE.wb, starRe .any, strRe "error"]

/-- `/COMPILATION ERROR/i` -/
def javaCompRe : RE := strRe "COMPILATION ERROR"

/-- `/\[ERROR\].*BUILD FAILURE/i` -/
def mavenFailRe : RE := cats [strRe "[ERROR]", starRe .any, strRe "BUILD FAILURE"]

/-- `/\[ERROR\].*Failed to execute goal/i` -/
def mavenGoalRe : RE := cats [strRe "[ERROR]", starRe .any, strRe "Failed to execute goal"]

/-- `/FAILURE: Build failed/i` -/
def gradleFailRe : RE := strRe "FAILURE: Build failed"

/-- `/Execution failed for task/i` -/
def gradleTaskRe : RE := strRe "Execution failed for task"

/-- `/Tests run:.*Failures: [1-9]/i` -/
def junitRunRe : RE :=
  cats [strRe "Tests run:", starRe .any, strRe "Failures: ", RE.cc (.rng '1' '9')]

/-- `/\bFAILURE!\b.*Tests run/i` -/
def junitFailureRe : RE :=
  cats [RE.wb, strRe "FAILURE!", RE.wb, starRe .any, strRe "Tests run"]

/-- `/\b(TypeError|ReferenceError|SyntaxError)\b/` -/
def nodeErrRe : RE :=
  cats [RE.wb,
    RE.alt (strRe "TypeError") (RE.alt (strRe "ReferenceError") (strRe "SyntaxError")),
    RE.wb]

/-- `/\bUnhandledPromiseRejection\b|\bUnhandled rejection\b/i` -/
def nodeRejectionRe : RE :=
  RE.alt (cats [RE.wb, strRe "UnhandledPromiseRejection", RE.wb])
    (cats [RE.wb, strRe "Unhandled rejection", RE.wb])

/-! ## `pickFirstMeaningfulError` -/

/-- A detection rule `{ name, re }`: the shape the `rules` array elements
have inside `pickFirstMeaningfulError` (custom rules are passed in this
shape too; `parseCustomRules` compiles the user's pattern with the `i`
flag, so a custom rule is any `⟨name, reTest true false re⟩`). -/
structure DetectRule where
  name : String
  test : String → Bool

/-- The built-in rule table, in source order. The second component of each
`reTest` call is the `m` flag (never set); the first is the `i` flag of the
corresponding regex literal (`jestFailRe`, `jestSummaryRe` and `nodeErrRe`
are the three case-sensitive ones). -/
def builtinRules : List DetectRule :=
  [⟨"ESLint", reTest true false eslintCompactRe⟩,
   ⟨"ESLint", reTest true false eslintSummaryRe⟩,
   ⟨"ESLint", reTest true false eslintCliRe⟩,
   ⟨"TypeScript", reTest true false tsErrorRe⟩,
   ⟨"TypeScript", reTest true false tsTypeErrorRe⟩,
   ⟨"npm", reTest true false npmErrRe⟩,
   ⟨"npm", reTest true false pnpmErrRe⟩,
   ⟨"npm", reTest true false yarnRe⟩,
   ⟨"Jest/Vitest", reTest false false jestFailRe⟩,
   ⟨"Jest/Vitest", reTest false false jestSummaryRe⟩,
   ⟨"Build", reTest true false bundlerRe⟩,
   ⟨"Build", reTest true false buildFailedRe⟩,
   ⟨"Docker", reTest true false dockerRe⟩,
   ⟨"pytest", reTest true false pytestFailedRe⟩,
   ⟨"pytest", reTest true false pytestErrorRe⟩,
   ⟨"mypy", reTest true false mypyRe⟩,
   ⟨"ruff/flake8", reTest true false ruffRe⟩,
   ⟨"pip", reTest true false pipRe⟩,
   ⟨"Go", reTest true false goFailRe⟩,
   ⟨"Go", reTest true false goPosRe⟩,
   ⟨"Go", reTest true false goPkgRe⟩,
   ⟨"Go", reTest true false goUndefRe⟩,
   ⟨"Java", reTest true false javaErrorRe⟩,
   ⟨"Java", reTest true false javacRe⟩,
   ⟨"Java", reTest true false javaCompRe⟩,
   ⟨"Maven", reTest true false mavenFailRe⟩,
   ⟨"Maven", reTest true false mavenGoalRe⟩,
   ⟨"Gradle", reTest true false gradleFailRe⟩,
   ⟨"Gradle", reTest true false gradleTaskRe⟩,
   ⟨"JUnit", reTest true false junitRunRe⟩,
   ⟨"JUnit", reTest true false junitFailureRe⟩,
   ⟨"Node", reTest false false nodeErrRe⟩,
   ⟨"Node", reTest true false nodeRejectionRe⟩]

/-- The value `pickFirstMeaningfulError` returns on a match:
`{ rule, line, excerpt, lineIndex }`. -/
structure Hit where
  rule : String
  line : String
  excerpt : List String
  lineIndex : Nat
deriving DecidableEq, Repr

/-- `lines.slice(Math.max(0, idx - 2), Math.min(lines.length, idx + 12))`
(`slice` excludes its end index; `Nat` subtraction is exactly the
`Math.max(0, ·)` clamp). -/
def excerptAt (lines : List String) (idx : Nat) : List String :=
  let start := idx - 2
  let stop := min lines.length (idx + 12)
  (lines.drop start).take (stop - start)

/-- The `for (const rule of rules)` loop: the first rule whose pattern
matches any line wins, at that rule's first matching line
(`lines.findIndex`). -/
def pickRules : List DetectRule → List String → Option Hit
  | [], _ => none
  | r :: rs, lines =>
      match lines.findIdx? (fun l => r.test l) with
      | some idx => some ⟨r.name, lines.getD idx "", excerptAt lines idx, idx⟩
      | none => pickRules rs lines

/-- `/##\[(group|endgroup|debug|notice)\]/i` -/
def annotMarkRe : RE :=
  cats [strRe "##[",
    RE.alt (strRe "group")
      (RE.alt (strRe "endgroup") (RE.alt (strRe "debug") (strRe "notice"))),
    RE.cc (.lit ']')]

/-- `/\berror\b|exception|failed/i` -/
def genericVocabRe : RE :=
  RE.alt (cats [RE.wb, strRe "error", RE.wb])
    (RE.alt (strRe "exception") (strRe "failed"))

/-- The predicate of the fallback `lines.findIndex` scan: skip falsy
(empty) lines and workflow-annotation markers, then look for the generic
failure vocabulary. -/
def fallbackPred (l : String) : Bool :=
  if l = "" then false
  else if reTest true false annotMarkRe l then false
  else reTest true false genericVocabRe l

/-- `pickFirstMeaningfulError(lines, customRules)`: the declared rules are
`[...customRules, ...builtinRules]` in order, then the generic fallback
scan, then `null`. -/
def pickFirstMeaningfulError (lines : List String) (customRules : List DetectRule) : Option Hit :=
  match pickRules (customRules ++ builtinRules) lines with
  | some h => some h
  | none =>
      match lines.findIdx? fallbackPred with
      | some idx => some ⟨"Generic", lines.getD idx "", excerptAt lines idx, idx⟩
      | none => none

/-! ## `src/lib/pattern-tracker.js` — occurrence parsing

`parseOccurrenceTimestamps` runs `/^- (\d{4}-\d{2}-\d{2}T\d{2}:\d{2}:\d{2}\.\d{3}Z)/gm`
over the body.  Under the `m` flag `^` matches at the start and after every
line terminator, the pattern itself cannot consume a line terminator, and
being anchored it can match at most once per line — so the scan reads each
line independently: a line matches iff it starts with `"- "` immediately
followed by 24 characters in the fixed timestamp shape, and the capture is
those 24 characters.  The embedding therefore splits the body at line
terminators and parses each line. -/

/-- Split at JavaScript line terminators (each terminator starts a new
line, which is exactly where `^`/`m` can match). -/
def splitLines : List Char → List (List Char)
  | [] => [[]]
  | c :: cs =>
      if isLineTerm c then [] :: splitLines cs
      else
        match splitLines cs with
        | l :: ls => (c :: l) :: ls
        | [] => [[c]]

/-- The 24-character shape `\d{4}-\d{2}-\d{2}T\d{2}:\d{2}:\d{2}\.\d{3}Z`. -/
def tsShape (cs : List Char) : Bool :=
  match cs with
  | [y1, y2, y3, y4, s1, o1, o2, s2, d1, d2, tT, h1, h2, c1, i1, i2, c2, e1, e2, dot, f1, f2, f3, z] =>
      isJsDigit y1 && isJsDigit y2 && isJsDigit y3 && isJsDigit y4 && s1 == '-' &&
      isJsDigit o1 && isJsDigit o2 && s2 == '-' && isJsDigit d1 && isJsDigit d2 &&
      tT == 'T' && isJsDigit h1 && isJsDigit h2 && c1 == ':' && isJsDigit i1 &&
      isJsDigit i2 && c2 == ':' && isJsDigit e1 && isJsDigit e2 && dot == '.' &&
      isJsDigit f1 && isJsDigit f2 && isJsDigit f3 && z == 'Z'
  | _ => false

/-- Numeric value of a digit string. -/
def readNat (cs : List Char) : Nat :=
  cs.foldl (fun a c => 10 * a + (c.toNat - '0'.toNat)) 0

/-- Gregorian leap year. -/
def isLeapYear (y : Nat) : Bool :=
  (y % 4 == 0 && y % 100 != 0) || y % 400 == 0

/-- Days in a month (1-based). -/
def daysInMonth (y mo : Nat) : Nat :=
  if mo = 2 then (if isLeapYear y then 29 else 28)
  else if mo = 4 ∨ mo = 6 ∨ mo = 9 ∨ mo = 11 then 30
  else 31

/-- Days from 1970-01-01 to `y-mo-d` (proleptic Gregorian; the standard
days-from-civil computation ECMAScript time values are defined by). -/
def daysFromCivil (y mo d : Nat) : Int :=
  let y2 : Int := if mo ≤ 2 then (y : Int) - 1 else (y : Int)
  let era : Int := (if 0 ≤ y2 then y2 else y2 - 399) / 400
  let yoe : Int := y2 - era * 400
  let mp : Int := ((mo : Int) + 9) % 12
  let doy : Int := (153 * mp + 2) / 5 + (d : Int) - 1
  let doe : Int := yoe * 365 + yoe / 4 - yoe / 100 + doy
  era * 146097 + doe - 719468

/-- `new Date(s)` for a string already in the 24-character shape:
milliseconds since the epoch, or `none` for `Invalid Date` (out-of-range
calendar fields; ECMAScript also accepts `24:00:00.000` as midnight). -/
def parseIsoMillis (cs : List Char) : Option Int :=
  let y := readNat (cs.take 4)
  let mo := readNat ((cs.drop 5).take 2)
  let d := readNat ((cs.drop 8).take 2)
  let h := readNat ((cs.drop 11).take 2)
  let mi := readNat ((cs.drop 14).take 2)
  let se := readNat ((cs.drop 17).take 2)
  let ms := readNat ((cs.drop 20).take 3)
  if 1 ≤ mo && mo ≤ 12 && 1 ≤ d && d ≤ daysInMonth y mo &&
     (h ≤ 23 || (h == 24 && mi == 0 && se == 0 && ms == 0)) && mi ≤ 59 && se ≤ 59 then
    some ((((daysFromCivil y mo d) * 24 + (h : Int)) * 60 + (mi : Int)) * 60 * 1000 +
      (se : Int) * 1000 + (ms : Int))
  else
    none

/-- One line of the `gm` scan: `^- (\d{4}-…Z)` anchored at the line start.
Returns the `new Date(m[1])` value when the line is an occurrence bullet. -/
def lineParse (l : List Char) : Option (Option Int) :=
  match l with
  | '-' :: ' ' :: rest =>
      if tsShape (rest.take 24) then some (parseIsoMillis (rest.take 24)) else none
  | _ => none

/-- `parseOccurrenceTimestamps(body)`. -/
def parseOccurrenceTimestamps (body : String) : List (Option Int) :=
  (splitLines body.data).filterMap lineParse

/-! ## Window stats and severity -/

/-- The `{ last7, last14 }` record `computeWindowStats` returns. -/
structure WindowStats where
  last7 : Nat
  last14 : Nat
deriving DecidableEq, Repr

/-- JavaScript `ts >= cutoff` on `Date`s: false when `ts` is invalid. -/
def tsGe (a : Option Int) (b : Int) : Bool :=
  match a with
  | some t => decide (b ≤ t)
  | none => false

/-- `computeWindowStats(timestamps, now)` (the source counts with two
mutable counters in one pass; counting the qualifying elements is the
same). -/
def computeWindowStats (timestamps : List (Option Int)) (now : Int) : WindowStats :=
  let d7 := now - 7 * 86400000
  let d14 := now - 14 * 86400000
  ⟨(timestamps.filter (fun ts => tsGe ts d7)).length,
   (timestamps.filter (fun ts => tsGe ts d14)).length⟩

/-- `BASE_SEVERITY[ruleName] || "low"`. -/
def baseSeverity (ruleName : String) : String :=
  if ruleName = "Docker" then "high"
  else if ruleName = "npm" then "high"
  else if ruleName = "Build" then "high"
  else if ruleName = "TypeScript" then "medium"
  else if ruleName = "Jest/Vitest" then "medium"
  else if ruleName = "Node" then "high"
  else if ruleName = "ESLint" then "low"
  else if ruleName = "Generic" then "low"
  else "low"

/-- `classifySeverity(ruleName, stats7d)`. -/
def classifySeverity (ruleName : String) (stats7d : Nat) : String :=
  if 5 ≤ stats7d then "high" else baseSeverity ruleName

/-! ## Stats line rewriting -/

/-- The rendered stats line. -/
def statsLineStr (stats : WindowStats) : String :=
  "**Last 7d:** " ++ toString stats.last7 ++ " | **Last 14d:** " ++ toString stats.last14

/-- `/^\*\*Last 7d:\*\*.+$/m` -/
def statsLineRe : RE := cats [RE.bol, strRe "**Last 7d:**", plusRe .any, RE.eol]

/-- `/^## Occurrences/m` -/
def occHeaderRe : RE := RE.cat RE.bol (strRe "## Occurrences")

/-- `appendStatsLine(body, stats)`: rewrite the stats line in place, or
insert one above the `## Occurrences` header. -/
def appendStatsLine (body : String) (stats : WindowStats) : String :=
  let statsLine := statsLineStr stats
  if reTest false true statsLineRe body then
    ⟨replaceFirstL false true statsLineRe statsLine.data body.data⟩
  else
    ⟨replaceFirstL false true occHeaderRe (statsLine ++ "\n\n## Occurrences").data body.data⟩

/-! ## Label bookkeeping -/

/-- Character-list versions of `String.prototype.startsWith` and
`String.prototype.includes`. -/
def isPrefL : List Char → List Char → Bool
  | [], _ => true
  | _ :: _, [] => false
  | a :: as, b :: bs => a == b && isPrefL as bs

def includesL (s sub : List Char) : Bool :=
  if isPrefL sub s then true
  else
    match s with
    | [] => false
    | _ :: t => includesL t sub

/-- `applySeverityLabel`: remove the stale `severity:*` labels, then add
the target unless it was already applied (checked against the labels as
fetched). -/
def applySeverityLabelModel (labels : List String) (severity : String) : List String :=
  let targetLabel := "severity:" ++ severity
  let kept := labels.filter (fun l => !(isPrefL "severity:".data l.data && l != targetLabel))
  if labels.any (fun l => l == targetLabel) then kept else kept ++ [targetLabel]

/-! ## `upsertIssueForSignature`

The store is modelled as the at-most-one issue carrying this fingerprint
(`q = in:title "<hash>" label:<label>` has no state filter, and the
follow-up query adds `is:closed`, so an existing issue is found whether
open or closed).  Network effects are pure state: the function returns the
updated record, the result object, and the comments it posted. -/

/-- `ISSUE_MARKER`. -/
def issueMarker : String := "<!-- pattern-signature:v0 -->"

/-- The reopen comment posted when a closed issue recurs. -/
def recurredComment : String :=
  "**Pattern recurred** — this issue was previously resolved but the same failure has reappeared. Check the previous closing comment for fix context."

/-- A tracked issue. -/
structure IssueRec where
  number : Nat
  title : String
  body : String
  labels : List String
  isOpen : Bool
deriving DecidableEq, Repr

/-- The occurrence object built in `run()`:
`{ when, runUrl, sourceRepo, explainerContext }`. -/
structure Occurrence where
  when : String
  runUrl : String
  sourceRepo : String
  explainerContext : String
deriving DecidableEq, Repr

/-- The result of `upsertIssueForSignature` (minus the issue url, which
the model store does not have). -/
structure UpsertResult where
  kind : String
  issueNumber : Nat
  severity : String
  muted : Bool
  totalOccurrences : Nat
  thresholdReached : Bool
deriving DecidableEq, Repr

/-- `/## Occurrences\s*\n/i` -/
def occInsertRe : RE := cats [strRe "## Occurrences", starRe .space, RE.cc (.lit '\n')]

/-- `/^## Occurrences\s*$/m` -/
def occHeaderLineRe : RE := cats [RE.bol, strRe "## Occurrences", starRe .space, RE.eol]

/-- `upsertIssueForSignature` with the store state passed explicitly.
Returns (new store, result, comments posted). -/
def upsertModel (store : Option IssueRec) (label signature signatureHash : String)
    (occurrence : Occurrence) (ruleName : String) (notifyThreshold : Int) (now : Int) :
    Option IssueRec × UpsertResult × List String :=
  let title := "[CI Pattern " ++ (⟨signatureHash.data.take 8⟩ : String) ++ "] " ++
    (⟨signature.data.take 120⟩ : String)
  let header := issueMarker ++ "\n\n**Signature:**\n```\n" ++ signature ++ "\n```\n\n"
  let repoTag := if occurrence.sourceRepo = "" then "" else " (" ++ occurrence.sourceRepo ++ ")"
  let explainerSuffix :=
    if occurrence.explainerContext = "" then "" else "\n  > " ++ occurrence.explainerContext
  let occLine := "- " ++ occurrence.when ++ " — " ++ occurrence.runUrl ++ repoTag ++ explainerSuffix
  match store with
  | some issue =>
      let wasClosed := !issue.isOpen
      let existingLabels := issue.labels
      let muted := existingLabels.contains "muted"
      let body := issue.body
      let updatedBody :=
        if includesL body.data "## Occurrences".data then
          (⟨replaceFirstL false true occHeaderLineRe "## Occurrences".data body.data⟩ : String)
        else body ++ (if body.endsWith "\n" then "" else "\n") ++ "\n## Occurrences\n"
      let prefixedOccLine :=
        if muted then
          "- [muted] " ++ occurrence.when ++ " — " ++ occurrence.runUrl ++ repoTag ++ explainerSuffix
        else occLine
      let withOcc : String :=
        ⟨replaceFirstL true false occInsertRe
          ("## Occurrences\n" ++ prefixedOccLine ++ "\n").data updatedBody.data⟩
      let allTimestamps := parseOccurrenceTimestamps withOcc
      let stats := computeWindowStats allTimestamps now
      let newBody := appendStatsLine withOcc stats
      let severity := classifySeverity ruleName stats.last7
      let newLabels1 := applySeverityLabelModel existingLabels severity
      let totalOccurrences := allTimestamps.length
      let fire := decide (0 < notifyThreshold) &&
        decide (notifyThreshold ≤ (totalOccurrences : Int)) &&
        !(existingLabels.contains "threshold-reached")
      let newLabels := if fire then newLabels1 ++ ["threshold-reached"] else newLabels1
      let comments := if wasClosed then [recurredComment] else []
      (some { issue with body := newBody, labels := newLabels, isOpen := true },
       { kind := if wasClosed then "reopened" else "updated",
         issueNumber := issue.number, severity := severity, muted := muted,
         totalOccurrences := totalOccurrences, thresholdReached := fire },
       comments)
  | none =>
      let severity := classifySeverity ruleName 0
      let newBody := header ++ "## Occurrences\n" ++ occLine ++ "\n"
      (some { number := 1, title := title, body := newBody,
              labels := [label, "severity:" ++ severity], isOpen := true },
       { kind := "created", issueNumber := 1, severity := severity, muted := false,
         totalOccurrences := 1, thresholdReached := false },
       [])

/-! ## `autoCloseQuietIssues` -/

/-- The store operations the sweep performs per issue, each of which can
fail independently (a thrown/rejected call is an `error`). -/
structure SweepStore where
  getBody : Nat → Except String String
  findFixing : Nat → Except String (List (Nat × String))
  postComment : Nat → String → Except String Unit
  closeIssue : Nat → Except String Unit

/-- Externally visible writes the sweep performed, in order. -/
inductive SweepAction where
  | commented (n : Nat) (body : String)
  | closedIssue (n : Nat)
deriving DecidableEq, Repr

/-- `a > b` on `Date`s (false whenever either is invalid). -/
def tsGt (a b : Option Int) : Bool :=
  match a, b with
  | some x, some y => decide (y < x)
  | _, _ => false

/-- `timestamps.reduce((a, b) => (a > b ? a : b))`; the source only calls
this on a non-empty list (`reduce` on `[]` would throw). -/
def latestTs : List (Option Int) → Option Int
  | [] => none
  | t :: ts => ts.foldl (fun a b => if tsGt a b then a else b) t

/-- The `**Likely fixed by:**` bullet list. -/
def fixLinkLines (prs : List (Nat × String)) : String :=
  String.intercalate "\n" (prs.map (fun pr => "- #" ++ toString pr.1 ++ " " ++ pr.2))

/-- The `for (const item of result.data.items)` loop.  A failed store call
makes the whole loop (and with it the sweep) return that error; `closed`
and `acts` accumulate in reverse. -/
def sweepGo (st : SweepStore) (cutoff nowMs : Int) :
    List Nat → List Nat → List SweepAction → Except String (List Nat) × List SweepAction
  | [], closed, acts => (.ok closed.reverse, acts.reverse)
  | n :: rest, closed, acts =>
      match st.getBody n with
      | .error e => (.error e, acts.reverse)
      | .ok body =>
          let timestamps := parseOccurrenceTimestamps body
          if timestamps.isEmpty then sweepGo st cutoff nowMs rest closed acts
          else
            let lastSeen := latestTs timestamps
            if tsGe lastSeen cutoff then sweepGo st cutoff nowMs rest closed acts
            else
              match st.findFixing n with
              | .error e => (.error e, acts.reverse)
              | .ok prs =>
                  let daysSince :=
                    match lastSeen with
                    | some t => toString ((nowMs - t) / 86400000)
                    | none => "NaN"
                  let closeMsg := "Pattern inactive for " ++ daysSince ++ " days — closing." ++
                    (if prs.isEmpty then "" else "\n\n**Likely fixed by:**\n" ++ fixLinkLines prs)
                  match st.postComment n closeMsg with
                  | .error e => (.error e, acts.reverse)
                  | .ok _ =>
                      match st.closeIssue n with
                      | .error e => (.error e, (SweepAction.commented n closeMsg :: acts).reverse)
                      | .ok _ =>
                          sweepGo st cutoff nowMs rest (n :: closed)
                            (SweepAction.closedIssue n :: SweepAction.commented n closeMsg :: acts)

/-- `autoCloseQuietIssues` over the open tracked issues the label search
returned (`items`), with the store's effects explicit.  Returns the value
(or propagated error) together with the writes performed. -/
def autoCloseModel (st : SweepStore) (quietDays : Int) (nowMs : Int) (items : List Nat) :
    Except String (List Nat) × List SweepAction :=
  if quietDays ≤ 0 then (.ok [], [])
  else sweepGo st (nowMs - quietDays * 86400000) nowMs items [] []

/-! ## `sha1` and the signature (driver in `src/README.md`)

`sha1` in `src/lib/utils.js` delegates to Node's `crypto` standard library,
which is outside the repository; the definitions below are therefore
modelled from the spec (§4.4: a deterministic digest of the signature
string) as the actual SHA-1 algorithm over the string's UTF-8 bytes,
hex-encoded — which is what `createHash("sha1").update(s).digest("hex")`
computes. -/

/-- UTF-8 encoding of one character, as byte values. -/
def utf8Enc (c : Char) : List Nat :=
  let n := c.toNat
  if n < 0x80 then [n]
  else if n < 0x800 then [0xC0 + n / 0x40, 0x80 + n % 0x40]
  else if n < 0x10000 then
    [0xE0 + n / 0x1000, 0x80 + n / 0x40 % 0x40, 0x80 + n % 0x40]
  else
    [0xF0 + n / 0x40000, 0x80 + n / 0x1000 % 0x40, 0x80 + n / 0x40 % 0x40, 0x80 + n % 0x40]

/-- Rotate a 32-bit word left by `n`. -/
def rotl32 (n x : Nat) : Nat := (x * 2 ^ n + x / 2 ^ (32 - n)) % 2 ^ 32

/-- SHA-1 round constants. -/
def sha1K (i : Nat) : Nat :=
  if i < 20 then 0x5A827999 else if i < 40 then 0x6ED9EBA1
  else if i < 60 then 0x8F1BBCDC else 0xCA62C1D6

/-- SHA-1 round functions. -/
def sha1F (i b c d : Nat) : Nat :=
  if i < 20 then (b &&& c) ||| ((b ^^^ 0xFFFFFFFF) &&& d)
  else if i < 40 then b ^^^ c ^^^ d
  else if i < 60 then (b &&& c) ||| (b &&& d) ||| (c &&& d)
  else b ^^^ c ^^^ d

/-- Big-endian 32-bit word from four bytes. -/
def beWord (a b c d : Nat) : Nat := ((a * 256 + b) * 256 + c) * 256 + d

/-- The 16 message words of one 64-byte block. -/
def blockWords (blk : List Nat) : List Nat :=
  (List.range 16).map (fun i =>
    beWord (blk.getD (4 * i) 0) (blk.getD (4 * i + 1) 0)
      (blk.getD (4 * i + 2) 0) (blk.getD (4 * i + 3) 0))

/-- Extend the message schedule by `n` more words. -/
def extendW : Nat → List Nat → List Nat
  | 0, w => w
  | n + 1, w =>
      extendW n (w ++ [rotl32 1 (w.getD (w.length - 3) 0 ^^^ w.getD (w.length - 8) 0 ^^^
        w.getD (w.length - 14) 0 ^^^ w.getD (w.length - 16) 0)])

/-- One SHA-1 compression round over the indexed schedule. -/
def sha1Rounds (w : List Nat) (st : Nat × Nat × Nat × Nat × Nat) : Nat × Nat × Nat × Nat × Nat :=
  (withIdx 0 w).foldl
    (fun st2 iw =>
      match st2 with
      | (a, b, c, d, e) =>
          ((rotl32 5 a + sha1F iw.1 b c d + e + sha1K iw.1 + iw.2) % 2 ^ 32,
           a, rotl32 30 b, c, d))
    st

/-- Fold the compression function over the 64-byte blocks. -/
def sha1Blocks : Nat → Nat × Nat × Nat × Nat × Nat → List Nat → Nat × Nat × Nat × Nat × Nat
  | 0, st, _ => st
  | _ + 1, st, [] => st
  | fuel + 1, st, bytes =>
      match st, sha1Rounds (extendW 64 (blockWords (bytes.take 64))) st with
      | (h0, h1, h2, h3, h4), (a, b, c, d, e) =>
          sha1Blocks fuel
            ((h0 + a) % 2 ^ 32, (h1 + b) % 2 ^ 32, (h2 + c) % 2 ^ 32,
             (h3 + d) % 2 ^ 32, (h4 + e) % 2 ^ 32)
            (bytes.drop 64)

/-- SHA-1 padding: `0x80`, zeros, 64-bit big-endian bit length. -/
def sha1Pad (msg : List Nat) : List Nat :=
  let bitLen := msg.length * 8
  let padZeros := (64 - (msg.length + 9) % 64) % 64
  msg ++ [0x80] ++ List.replicate padZeros 0 ++
    [bitLen / 2 ^ 56 % 256, bitLen / 2 ^ 48 % 256, bitLen / 2 ^ 40 % 256,
     bitLen / 2 ^ 32 % 256, bitLen / 2 ^ 24 % 256, bitLen / 2 ^ 16 % 256,
     bitLen / 2 ^ 8 % 256, bitLen % 256]

/-- One lowercase hex digit. -/
def hexDigit (n : Nat) : Char :=
  if n < 10 then Char.ofNat ('0'.toNat + n) else Char.ofNat ('a'.toNat + n - 10)

/-- Eight lowercase hex digits of a 32-bit word. -/
def hex8 (x : Nat) : List Char :=
  [hexDigit (x / 16 ^ 7 % 16), hexDigit (x / 16 ^ 6 % 16), hexDigit (x / 16 ^ 5 % 16),
   hexDigit (x / 16 ^ 4 % 16), hexDigit (x / 16 ^ 3 % 16), hexDigit (x / 16 ^ 2 % 16),
   hexDigit (x / 16 % 16), hexDigit (x % 16)]

/-- Modelled from the spec: `sha1(s)` in `src/lib/utils.js` calls Node's
`crypto.createHash("sha1")` (standard library, not repository code); this
is the SHA-1 hex digest it returns. -/
def sha1 (s : String) : String :=
  let msg := sha1Pad (s.data.flatMap utf8Enc)
  match sha1Blocks (msg.length + 1)
      (0x67452301, 0xEFCDAB89, 0x98BADCFE, 0x10325476, 0xC3D2E1F0) msg with
  | (h0, h1, h2, h3, h4) => ⟨hex8 h0 ++ hex8 h1 ++ hex8 h2 ++ hex8 h3 ++ hex8 h4⟩

/-- The signature built in `run()` (README driver, line
`const signature = \`${hit.rule}: ${normalized}\``): category, colon-space,
normalized matched line. -/
def hitSignature (category rawLine : String) : String :=
  category ++ ": " ++ normalize rawLine

/-- The fingerprint: `sha1(signature)` (README driver). -/
def fingerprintOf (category rawLine : String) : String :=
  sha1 (hitSignature category rawLine)

/-! ## Spec-side definitions

These restate what the specification says in its own words; the claim
theorems compare them with the definitions above, which were translated
from the source. -/

/-- Severity exactly as the spec describes it: `"high"` whenever the
recent count reaches 5 regardless of category, otherwise the per-category
base — high for the build/packaging/container/runtime-crash categories,
medium for type-checking/test-framework categories, low for style/lint
categories and anything unrecognized. -/
def severitySpec (category : String) (recentCount : Nat) : String :=
  if 5 ≤ recentCount then "high"
  else if category ∈ (["Build", "npm", "Docker", "Node"] : List String) then "high"
  else if category ∈ (["TypeScript", "Jest/Vitest"] : List String) then "medium"
  else "low"

/-- Consume a case-folded literal string from the input, tracking the
previous character (this is what matching a chain of `CC.lit` classes
does). -/
def ciStrip (ci : Bool) : List Char → Option Char → List Char → Option (Option Char × List Char)
  | [], p, s => some (p, s)
  | _ :: _, _, [] => none
  | a :: as, _, b :: bs => if ccTest ci (.lit a) b then ciStrip ci as (some b) bs else none

/-- Spec-side: `w` starts `s` up to ASCII case. -/
def isPrefCIL (w s : List Char) : Bool :=
  isPrefL (w.map Char.toLower) (s.map Char.toLower)

/-- Spec-side: the line contains the token `sub`, case-insensitively. -/
def containsCI (sub l : String) : Bool :=
  includesL (l.data.map Char.toLower) (sub.data.map Char.toLower)

/-- Spec-side: the line contains `w` as a whole word — an occurrence with
no word character adjacent on either side — case-insensitively. -/
def hasWordCI (w l : String) : Bool :=
  (List.range (l.data.length + 1)).any (fun i =>
    isPrefCIL w.data (l.data.drop i) &&
    (match (l.data.take i).getLast? with | none => true | some c => !isJsWord c) &&
    (match (l.data.drop (i + w.data.length)).head? with | none => true | some c => !isJsWord c))

/-- Spec-side fallback predicate, in the claim's words: a non-empty line
that is not a group/endgroup/debug/notice annotation marker and contains a
case-insensitive `"error"` (as a word), `"exception"`, or `"failed"`
token. -/
def fallbackSpec (l : String) : Bool :=
  !(l == "") &&
  !(containsCI "##[group]" l || containsCI "##[endgroup]" l ||
    containsCI "##[debug]" l || containsCI "##[notice]" l) &&
  (hasWordCI "error" l || containsCI "exception" l || containsCI "failed" l)

/-- The default `DetectRule` used with `List.getD` in rule-indexing
statements (it matches nothing). -/
def noRule : DetectRule := ⟨"", fun _ => false⟩

/-- A concrete 20-line log whose only error-vocabulary line is at index 5,
far from both edges (used to exercise the excerpt bounds). -/
def sampleLines20 : List String :=
  ["l00", "l01", "l02", "l03", "l04", "x error y", "l06", "l07", "l08", "l09",
   "l10", "l11", "l12", "l13", "l14", "l15", "l16", "l17", "l18", "l19"]

/-! # Theorems

First the structural facts about the matcher, then the claim theorems. -/

/-! ## Structural facts about matching (used for termination and later for
reasoning about `replace`) -/

theorem ccStates_suffix (ci : Bool) (c : CC) :
    ∀ (n : Nat) (p : Option Char) (s : List Char) (e : Option Char × List Char),
      e ∈ ccStates ci c n p s → e.2 <:+ s := by
  intro n
  induction n with
  | zero =>
      intro p s e he
      simp only [ccStates, List.mem_singleton] at he
      subst he; exact List.suffix_refl s
  | succ n ih =>
      intro p s e he
      simp only [ccStates, List.mem_cons] at he
      rcases he with h | h
      · subst h; exact List.suffix_refl s
      · cases s with
        | nil => simp at h
        | cons a t =>
            by_cases hc : ccTest ci c a = true
            · simp only [hc, if_pos] at h
              exact (ih (some a) t e h).trans (List.suffix_cons a t)
            · simp [hc] at h

theorem mem_withIdx {α : Type} :
    ∀ (l : List α) (i : Nat) (e : Nat × α), e ∈ withIdx i l → e.2 ∈ l := by
  intro l
  induction l with
  | nil => intro i e he; simp [withIdx] at he
  | cons a t ih =>
      intro i e he
      simp only [withIdx, List.mem_cons] at he
      rcases he with h | h
      · subst h; exact List.mem_cons_self a t
      · exact List.mem_cons_of_mem a (ih (i + 1) e h)

/-- Whatever a successful match hands its continuation is a suffix of the
input, and the overall result is what the continuation produced. -/
theorem mAt_some_suffix (ci m : Bool) :
    ∀ (re : RE) (p : Option Char) (s : List Char)
      (k : Option Char → List Char → Option (List Char)) (r : List Char),
      mAt ci m re p s k = some r → ∃ p2 s2, s2 <:+ s ∧ k p2 s2 = some r := by
  intro re
  induction re with
  | eps => intro p s k r h; exact ⟨p, s, List.suffix_refl s, h⟩
  | cc c =>
      intro p s k r h
      cases s with
      | nil => simp [mAt] at h
      | cons a t =>
          simp only [mAt] at h
          by_cases hc : ccTest ci c a = true
          · rw [if_pos hc] at h
            exact ⟨some a, t, List.suffix_cons a t, h⟩
          · rw [if_neg hc] at h; exact absurd h (by simp)
  | rep c lo hi =>
      intro p s k r h
      simp only [mAt] at h
      obtain ⟨e, he, hke⟩ := List.exists_of_findSome?_eq_some h
      rw [List.mem_reverse] at he
      have h2 := mem_withIdx _ _ _ he
      have hsuf := ccStates_suffix ci c _ p s _ h2
      by_cases hlo : lo ≤ e.1
      · rw [if_pos hlo] at hke
        exact ⟨e.2.1, e.2.2, hsuf, hke⟩
      · rw [if_neg hlo] at hke; exact absurd hke (by simp)
  | cat a b iha ihb =>
      intro p s k r h
      simp only [mAt] at h
      obtain ⟨p2, s2, hs2, h2⟩ := iha p s _ r h
      obtain ⟨p3, s3, hs3, h3⟩ := ihb p2 s2 k r h2
      exact ⟨p3, s3, hs3.trans hs2, h3⟩
  | alt a b iha ihb =>
      intro p s k r h
      simp only [mAt] at h
      cases ha : mAt ci m a p s k with
      | some r2 => rw [ha] at h; cases h; exact iha p s k r ha
      | none => rw [ha] at h; exact ihb p s k r h
  | bol =>
      intro p s k r h
      simp only [mAt] at h
      split at h
      · exact ⟨p, s, List.suffix_refl s, h⟩
      · exact absurd h (by simp)
  | eol =>
      intro p s k r h
      simp only [mAt] at h
      split at h
      · exact ⟨p, s, List.suffix_refl s, h⟩
      · exact absurd h (by simp)
  | wb =>
      intro p s k r h
      simp only [mAt] at h
      split at h
      · exact ⟨p, s, List.suffix_refl s, h⟩
      · exact absurd h (by simp)

theorem matchHere_suffix (ci m : Bool) (re : RE) (p : Option Char) (s rest : List Char)
    (h : matchHere ci m re p s = some rest) : rest <:+ s := by
  obtain ⟨p2, s2, hs2, h2⟩ := mAt_some_suffix ci m re p s _ rest h
  cases h2; exact hs2

/-- Decomposition produced by the scanner: the input splits into the part
skipped before the match, the match itself, and the rest. -/
theorem findMatchFrom_decomp (ci m : Bool) (re : RE) :
    ∀ (suf preRev pR mt rest : List Char),
      findMatchFrom ci m re preRev suf = some (pR, mt, rest) →
      ∃ skipped, pR = skipped.reverse ++ preRev ∧ suf = skipped ++ mt ++ rest := by
  intro suf
  induction suf with
  | nil =>
      intro preRev pR mt rest h
      simp only [findMatchFrom] at h
      cases hmh : matchHere ci m re preRev.head? [] with
      | some r0 =>
          rw [hmh] at h
          have hs := matchHere_suffix ci m re preRev.head? [] r0 hmh
          have : r0 = [] := List.eq_nil_of_suffix_nil hs
          subst this
          simp only [Option.some.injEq, Prod.mk.injEq] at h
          obtain ⟨h1, h2, h3⟩ := h
          exact ⟨[], by simp [h1.symm], by simp [h2.symm, h3.symm]⟩
      | none => rw [hmh] at h; exact absurd h (by simp)
  | cons a t ih =>
      intro preRev pR mt rest h
      simp only [findMatchFrom] at h
      cases hmh : matchHere ci m re preRev.head? (a :: t) with
      | some r0 =>
          rw [hmh] at h
          obtain ⟨mt0, hmt0⟩ := matchHere_suffix ci m re preRev.head? (a :: t) r0 hmh
          simp only [Option.some.injEq, Prod.mk.injEq] at h
          obtain ⟨h1, h2, h3⟩ := h
          subst h1; subst h3
          refine ⟨[], by simp, ?_⟩
          rw [← h2]
          have hl := congrArg List.length hmt0
          simp only [List.length_append, List.length_cons] at hl
          have hlen : (a :: t).length - r0.length = mt0.length := by
            simp only [List.length_cons]; omega
          rw [hlen, ← hmt0, List.take_left]
          simp
      | none =>
          rw [hmh] at h
          obtain ⟨sk, hsk1, hsk2⟩ := ih (a :: preRev) pR mt rest h
          exact ⟨a :: sk, by simp [hsk1], by simp [hsk2]⟩

theorem findMatchFrom_rest_length (ci m : Bool) (re : RE)
    (suf preRev pR mt rest : List Char)
    (h : findMatchFrom ci m re preRev suf = some (pR, mt, rest)) :
    mt.length + rest.length ≤ suf.length := by
  obtain ⟨sk, _, h2⟩ := findMatchFrom_decomp ci m re suf preRev pR mt rest h
  subst h2; simp


/-! ## Claim C6 — severity classification -/

/-- Claim C6: `severity(category, n)` is `"high"` whenever `n ≥ 5`
regardless of category, and otherwise equals the per-category base
severity (high for Build/npm/Docker/Node, medium for
TypeScript/Jest-Vitest, low for style/lint and anything unrecognized);
in particular `"ESLint"` with `n = 5` gives `"high"` and with `n = 1`
gives `"low"`. -/
theorem claim_C6 :
    (∀ (category : String) (n : Nat), classifySeverity category n = severitySpec category n) ∧
    classifySeverity "ESLint" 5 = "high" ∧ classifySeverity "ESLint" 1 = "low" := by
  refine ⟨fun category n => ?_, by decide, by decide⟩
  simp only [classifySeverity, severitySpec, baseSeverity, List.mem_cons,
    List.mem_singleton, List.not_mem_nil, or_false]
  split_ifs <;> simp_all

/-! ## Claim C5 — excerpt bounds -/

/-- Any hit produced by the rule loop is located at a real line, carries
that line, and its excerpt is the `slice` window around it. -/
theorem pickRules_some_shape (rules : List DetectRule) (lines : List String) (hit : Hit)
    (h : pickRules rules lines = some hit) :
    hit.lineIndex < lines.length ∧ hit.line = lines.getD hit.lineIndex "" ∧
    hit.excerpt = excerptAt lines hit.lineIndex := by
  induction rules with
  | nil => simp [pickRules] at h
  | cons r rs ih =>
      simp only [pickRules] at h
      cases hf : lines.findIdx? (fun l => r.test l) with
      | some idx =>
          rw [hf] at h
          obtain ⟨hlt, -, -⟩ := List.findIdx?_eq_some_iff_getElem.mp hf
          cases h
          exact ⟨hlt, rfl, rfl⟩
      | none => rw [hf] at h; exact ih h

/-- Same shape facts for the full classifier (rule hit or fallback hit). -/
theorem pick_some_shape (lines : List String) (customRules : List DetectRule) (hit : Hit)
    (h : pickFirstMeaningfulError lines customRules = some hit) :
    hit.lineIndex < lines.length ∧ hit.line = lines.getD hit.lineIndex "" ∧
    hit.excerpt = excerptAt lines hit.lineIndex := by
  unfold pickFirstMeaningfulError at h
  cases hp : pickRules (customRules ++ builtinRules) lines with
  | some h0 =>
      rw [hp] at h; cases h
      exact pickRules_some_shape _ lines _ hp
  | none =>
      rw [hp] at h
      cases hf : lines.findIdx? fallbackPred with
      | some idx =>
          rw [hf] at h
          obtain ⟨hlt, -, -⟩ := List.findIdx?_eq_some_iff_getElem.mp hf
          cases h
          exact ⟨hlt, rfl, rfl⟩
      | none => rw [hf] at h; exact absurd h (by simp)

/-- The `slice` window, positionally: it starts at line `i - 2` and covers
the consecutive lines below `min lines.length (i + 12)`. -/
theorem excerptAt_spec (lines : List String) (i : Nat) :
    (excerptAt lines i).length = min lines.length (i + 12) - (i - 2) ∧
    ∀ t, t < (excerptAt lines i).length →
      (excerptAt lines i).getD t "" = lines.getD (i - 2 + t) "" := by
  unfold excerptAt
  constructor
  · simp only [List.length_take, List.length_drop]
    omega
  · intro t ht
    simp only [List.length_take, List.length_drop] at ht
    have h1 : t < lines.length - (i - 2) := by omega
    have h2 : i - 2 + t < lines.length := by omega
    rw [List.getD_eq_getElem _ _ (by simp [List.length_take, List.length_drop]; omega),
      List.getD_eq_getElem _ _ h2]
    rw [List.getElem_take, List.getElem_drop]

/-- Claim C5 (amended): for every hit of the classifier, the excerpt is
exactly the lines from index `i − 2` through index `i + 11` inclusive,
clipped to the sequence bounds — i.e. up to 2 lines before the match, the
match line, and up to 11 (not 12) lines after it. -/
theorem claim_C5_amended (lines : List String) (customRules : List DetectRule) (hit : Hit)
    (h : pickFirstMeaningfulError lines customRules = some hit) :
    hit.excerpt.length = min lines.length (hit.lineIndex + 12) - (hit.lineIndex - 2) ∧
    ∀ t, t < hit.excerpt.length →
      hit.excerpt.getD t "" = lines.getD (hit.lineIndex - 2 + t) "" := by
  obtain ⟨-, -, he⟩ := pick_some_shape lines customRules hit h
  rw [he]
  exact excerptAt_spec lines hit.lineIndex

/-- Witness for C5 (amended) at a concrete log: the match is at index 5 of
a 20-line log, and the excerpt has `min 20 17 - 3 = 14` lines. -/
theorem claim_C5_witness :
    pickFirstMeaningfulError sampleLines20 [] =
      some ⟨"Generic", "x error y", excerptAt sampleLines20 5, 5⟩ ∧
    (excerptAt sampleLines20 5).length =
      min sampleLines20.length (5 + 12) - (5 - 2) := by
  have h := claim_C5_amended sampleLines20 []
    ⟨"Generic", "x error y", excerptAt sampleLines20 5, 5⟩ (by decide)
  exact ⟨by decide, h.1⟩

/-- Counterexample to C5 as stated: at a match on line 5 of a 20-line log
the captured excerpt is the 14 lines with indices 3 through 16, not the 15
lines through index `5 + 12 = 17` the claim requires. -/
theorem claim_C5_counterexample :
    (pickFirstMeaningfulError sampleLines20 []).map Hit.lineIndex = some 5 ∧
    (pickFirstMeaningfulError sampleLines20 []).map Hit.excerpt =
      some ["l03", "l04", "x error y", "l06", "l07", "l08", "l09", "l10",
            "l11", "l12", "l13", "l14", "l15", "l16"] ∧
    (pickFirstMeaningfulError sampleLines20 []).map Hit.excerpt ≠
      some ["l03", "l04", "x error y", "l06", "l07", "l08", "l09", "l10",
            "l11", "l12", "l13", "l14", "l15", "l16", "l17"] := by
  exact ⟨by decide, by decide, by decide⟩

/-! ## Claim C2 — step lookup -/

/-- Sortedness transfers from `Pairwise` to a `getD`-monotonicity fact. -/
theorem pairwise_getD_mono (ss : List Boundary)
    (hs : ss.Pairwise (fun a b => a.idx ≤ b.idx)) :
    ∀ i j : Nat, i ≤ j → j < ss.length →
      (ss.getD i ⟨0, ""⟩).idx ≤ (ss.getD j ⟨0, ""⟩).idx := by
  intro i j hij hj
  rcases Nat.eq_or_lt_of_le hij with rfl | hlt
  · exact Nat.le_refl _
  · have hi : i < ss.length := Nat.lt_trans hlt hj
    rw [List.getD_eq_getElem _ _ hi, List.getD_eq_getElem _ _ hj]
    exact List.pairwise_iff_getElem.mp hs i j hi hj hlt

/-- The binary-search loop invariant: if everything left of `lo` is at or
below the query and everything right of `hi` is above it, the final `hi`
separates the two regions. -/
theorem bsearchLoop_invariant (ss : List Boundary) (q : Nat)
    (hmono : ∀ i j : Nat, i ≤ j → j < ss.length →
      (ss.getD i ⟨0, ""⟩).idx ≤ (ss.getD j ⟨0, ""⟩).idx) :
    ∀ (fuel : Nat) (lo hi : Int), 0 ≤ lo → hi < (ss.length : Int) → lo ≤ hi + 1 →
      (hi + 1 - lo).toNat < fuel →
      (∀ j : Nat, (j : Int) < lo → j < ss.length → (ss.getD j ⟨0, ""⟩).idx ≤ q) →
      (∀ j : Nat, hi < (j : Int) → j < ss.length → q < (ss.getD j ⟨0, ""⟩).idx) →
      lo - 1 ≤ bsearchLoop ss q fuel lo hi ∧ bsearchLoop ss q fuel lo hi ≤ hi ∧
      (∀ j : Nat, (j : Int) ≤ bsearchLoop ss q fuel lo hi → j < ss.length →
        (ss.getD j ⟨0, ""⟩).idx ≤ q) ∧
      (∀ j : Nat, bsearchLoop ss q fuel lo hi < (j : Int) → j < ss.length →
        q < (ss.getD j ⟨0, ""⟩).idx) := by
  intro fuel
  induction fuel with
  | zero => intro lo hi _ _ _ hfuel _ _; omega
  | succ fuel ih =>
      intro lo hi hlo hhi hwf hfuel hbelow habove
      rw [bsearchLoop]
      by_cases hcmp : lo ≤ hi
      · rw [if_pos hcmp]
        have hmid1 : lo ≤ (lo + hi) / 2 := by omega
        have hmid2 : (lo + hi) / 2 ≤ hi := by omega
        have hmidnat : (((lo + hi) / 2).toNat : Int) = (lo + hi) / 2 := by omega
        by_cases htest : (ss.getD ((lo + hi) / 2).toNat ⟨0, ""⟩).idx ≤ q
        · rw [if_pos htest]
          refine (ih ((lo + hi) / 2 + 1) hi (by omega) hhi (by omega) (by omega) ?_ habove).imp
            (by omega) (fun h => h)
          intro j hj hjlen
          refine Nat.le_trans (hmono j ((lo + hi) / 2).toNat ?_ ?_) htest
          · omega
          · omega
        · rw [if_neg htest]
          have habove2 : ∀ j : Nat, (lo + hi) / 2 - 1 < (j : Int) → j < ss.length →
              q < (ss.getD j ⟨0, ""⟩).idx := by
            intro j hj hjlen
            by_cases hj2 : hi < (j : Int)
            · exact habove j hj2 hjlen
            · have : ((lo + hi) / 2).toNat ≤ j := by omega
              exact Nat.lt_of_lt_of_le (Nat.lt_of_not_le htest)
                (hmono ((lo + hi) / 2).toNat j this hjlen)
          refine (ih lo ((lo + hi) / 2 - 1) hlo (by omega) (by omega) (by omega) hbelow habove2).imp
            (fun h => h) (fun h => ⟨by omega, h.2⟩)
      · rw [if_neg hcmp]
        refine ⟨by omega, by omega, ?_, habove⟩
        intro j hj hjlen
        exact hbelow j (by omega) hjlen

/-- Claim C2 (amended): with a boundary list sorted by `lineIndex`, the
lookup returns the name of the last boundary at or before the query; an
empty list yields the sentinel `"Unknown step"`, but a query strictly
before the first boundary yields the *first boundary's* name (the
`Math.max(0, hi)` clamp), not the sentinel. -/
theorem claim_C2_amended (ss : List Boundary) (q : Nat)
    (hs : ss.Pairwise (fun a b => a.idx ≤ b.idx)) :
    (ss = [] → findStepForLineIndex ss q = "Unknown step") ∧
    (∀ b0 tl, ss = b0 :: tl → q < b0.idx → findStepForLineIndex ss q = b0.name) ∧
    (∀ k : Nat, k < ss.length → (ss.getD k ⟨0, ""⟩).idx ≤ q →
      (∀ j : Nat, k < j → j < ss.length → q < (ss.getD j ⟨0, ""⟩).idx) →
      findStepForLineIndex ss q = (ss.getD k ⟨0, ""⟩).name) := by
  have hmono := pairwise_getD_mono ss hs
  refine ⟨fun he => by simp [findStepForLineIndex, he], ?_, ?_⟩
  · -- query strictly before the first boundary
    intro b0 tl hab hq
    have hne : ¬ss.isEmpty := by simp [hab]
    have hlen : 0 < ss.length := by simp [hab]
    have hinv := bsearchLoop_invariant ss q hmono (ss.length + 1) 0 ((ss.length : Int) - 1)
      (by omega) (by omega) (by omega) (by omega) (by omega) (by omega)
    set r := bsearchLoop ss q (ss.length + 1) 0 ((ss.length : Int) - 1) with hr
    have hrneg : r < 0 := by
      by_contra hge
      have h0 := hinv.2.2.1 0 (by omega) hlen
      rw [hab] at h0
      simp [List.getD] at h0
      omega
    have hmax : (max 0 r).toNat = 0 := by omega
    unfold findStepForLineIndex
    rw [if_neg hne]
    show (ss.getD (max 0 r).toNat ⟨0, ""⟩).name = b0.name
    rw [hmax, hab]
    simp [List.getD]
  · -- the last boundary at or below the query
    intro k hk hble hab2
    have hne : ¬ss.isEmpty := by
      cases ss with
      | nil => simp at hk
      | cons x xs => simp
    have hinv := bsearchLoop_invariant ss q hmono (ss.length + 1) 0 ((ss.length : Int) - 1)
      (by omega) (by omega) (by omega) (by omega) (by omega) (by omega)
    set r := bsearchLoop ss q (ss.length + 1) 0 ((ss.length : Int) - 1) with hr
    have hge : (k : Int) ≤ r := by
      by_contra hlt
      have := hinv.2.2.2 k (by omega) hk
      omega
    have hle : r ≤ (k : Int) := by
      by_contra hgt
      have hrlen : r ≤ (ss.length : Int) - 1 := hinv.2.1
      have hlt2 : r.toNat < ss.length := by omega
      have h1 := hinv.2.2.1 r.toNat (by omega) hlt2
      have h2 := hab2 r.toNat (by omega) hlt2
      omega
    have hmax : (max 0 r).toNat = k := by omega
    unfold findStepForLineIndex
    rw [if_neg hne]
    show (ss.getD (max 0 r).toNat ⟨0, ""⟩).name = (ss.getD k ⟨0, ""⟩).name
    rw [hmax]

/-- Counterexample to C2 as stated: with the single boundary `(5, "A")`, a
query at index 0 — strictly before the first boundary — returns `"A"`, not
the sentinel `"Unknown step"` the claim requires. -/
theorem claim_C2_counterexample :
    findStepForLineIndex [⟨5, "A"⟩] 0 = "A" ∧
    findStepForLineIndex [⟨5, "A"⟩] 0 ≠ "Unknown step" := by
  exact ⟨by decide, by decide⟩

/-- Witness for C2 (amended) on the boundary list
`[(0, "A"), (10, "B"), (25, "C")]`: index 15 resolves to `"B"` (the last
boundary at or before it), and the empty list gives the sentinel. -/
theorem claim_C2_witness :
    findStepForLineIndex [⟨0, "A"⟩, ⟨10, "B"⟩, ⟨25, "C"⟩] 15 = "B" ∧
    findStepForLineIndex [] 15 = "Unknown step" := by
  have h := claim_C2_amended [⟨0, "A"⟩, ⟨10, "B"⟩, ⟨25, "C"⟩] 15 (by decide)
  constructor
  · have h2 := h.2.2 1 (by decide) (by decide) (by
      intro j hj1 hj2
      have hj3 : j < 3 := by simpa using hj2
      interval_cases j
      decide)
    simpa using h2
  · exact (claim_C2_amended [] 15 (by decide)).1 rfl

/-! ## Claim C9 — normalizer idempotence -/

/-- Claim C9 fails on the code: `normalize` is not idempotent.  On
`":" ++ 35 × "1" ++ 10 × "a"` the first pass rewrites the 45-character
word run only through the `:\d+` rule (the run is too long for the
`[0-9a-f]{7,40}` hash rule), producing `":<line>aaaaaaaaaa"`; the second
pass now sees a free-standing 10-character lowercase-hex run and rewrites
it to `"…sha…"`. -/
theorem claim_C9_bug :
    normalize (normalize ":11111111111111111111111111111111111aaaaaaaaaa") ≠
      normalize ":11111111111111111111111111111111111aaaaaaaaaa" ∧
    normalize ":11111111111111111111111111111111111aaaaaaaaaa" = ":<line>aaaaaaaaaa" ∧
    normalize (normalize ":11111111111111111111111111111111111aaaaaaaaaa") = ":<line>…sha…" := by
  exact ⟨by decide, by decide, by decide⟩

/-! ## Claim C10 — signature equality -/

/-- Splitting at `": "` is unambiguous when neither prefix contains a
colon. -/
theorem append_colon_inj :
    ∀ (c1 c2 n1 n2 : List Char), ':' ∉ c1 → ':' ∉ c2 →
      c1 ++ ':' :: ' ' :: n1 = c2 ++ ':' :: ' ' :: n2 → c1 = c2 ∧ n1 = n2 := by
  intro c1
  induction c1 with
  | nil =>
      intro c2 n1 n2 _ hc2 he
      cases c2 with
      | nil => simpa using he
      | cons b bs =>
          simp only [List.nil_append, List.cons_append, List.cons.injEq] at he
          exact absurd (he.1 ▸ List.mem_cons_self b bs) (he.1 ▸ hc2)
  | cons a as ih =>
      intro c2 n1 n2 hc1 hc2 he
      cases c2 with
      | nil =>
          simp only [List.cons_append, List.nil_append, List.cons.injEq] at he
          exact absurd (he.1 ▸ List.mem_cons_self a as) (fun hm => hc1 (he.1 ▸ hm))
      | cons b bs =>
          simp only [List.cons_append, List.cons.injEq] at he
          have h2 := ih bs n1 n2 (fun hm => hc1 (List.mem_cons_of_mem a hm))
            (fun hm => hc2 (he.1 ▸ List.mem_cons_of_mem b hm)) he.2
          exact ⟨by rw [he.1, h2.1], h2.2⟩

/-- Claim C10 (amended): two classified hits produce the same signature iff
their categories are equal and their normalized lines are byte-equal,
*provided* neither category contains a colon (true of every built-in
category); equal signatures always hash to one fingerprint. -/
theorem claim_C10_amended (cat1 cat2 line1 line2 : String)
    (h1 : (':' : Char) ∉ cat1.data) (h2 : (':' : Char) ∉ cat2.data) :
    (hitSignature cat1 line1 = hitSignature cat2 line2 ↔
      cat1 = cat2 ∧ normalize line1 = normalize line2) ∧
    (hitSignature cat1 line1 = hitSignature cat2 line2 →
      fingerprintOf cat1 line1 = fingerprintOf cat2 line2) := by
  constructor
  · constructor
    · intro he
      have hd : (hitSignature cat1 line1).data = (hitSignature cat2 line2).data := by rw [he]
      simp only [hitSignature, String.data_append] at hd
      have hd2 : cat1.data ++ ':' :: ' ' :: (normalize line1).data =
          cat2.data ++ ':' :: ' ' :: (normalize line2).data := by
        simpa [List.append_assoc] using hd
      obtain ⟨ha, hb⟩ := append_colon_inj cat1.data cat2.data _ _ h1 h2 hd2
      exact ⟨String.ext ha, String.ext hb⟩
    · intro ⟨ha, hb⟩
      simp [hitSignature, ha, hb]
  · intro he
    simp only [fingerprintOf, he]

/-- Witness for C10 (amended), instantiating the spec's own example: the
two ESLint hits on `src/a.ts:12:4 error Foo` and `src/a.ts:99:1 error Foo`
normalize identically, so they share one signature and one fingerprint. -/
theorem claim_C10_witness :
    hitSignature "ESLint" "src/a.ts:12:4 error Foo" =
      hitSignature "ESLint" "src/a.ts:99:1 error Foo" ∧
    fingerprintOf "ESLint" "src/a.ts:12:4 error Foo" =
      fingerprintOf "ESLint" "src/a.ts:99:1 error Foo" := by
  have h := claim_C10_amended "ESLint" "ESLint"
    "src/a.ts:12:4 error Foo" "src/a.ts:99:1 error Foo" (by decide) (by decide)
  have hsig := h.1.mpr ⟨rfl, by decide⟩
  exact ⟨hsig, h.2 hsig⟩

/-- Counterexample to C10 as stated: without the colon restriction the
"only if" direction fails — a custom rule may be named `"A: B"`, and the
hits `("A", "B: C")` and `("A: B", "C")` have different categories yet
produce the same signature string `"A: B: C"`. -/
theorem claim_C10_counterexample :
    hitSignature "A" "B: C" = hitSignature "A: B" "C" ∧
    ("A" : String) ≠ "A: B" := by
  exact ⟨by decide, by decide⟩

/-! ## Claim C8 — reopen semantics -/

/-- Claim C8: upserting against a fingerprint whose only record is CLOSED
transitions it to OPEN with decision `"reopened"` and posts the recurrence
annotation, exactly once: the record is left OPEN, so a subsequent upsert
returns `"updated"` with no annotation; and no upsert ever leaves a record
CLOSED (the OPEN→CLOSED transition exists only in the auto-close sweep). -/
theorem claim_C8 (issue : IssueRec) (label signature signatureHash : String)
    (occurrence : Occurrence) (ruleName : String) (notifyThreshold : Int) (now : Int)
    (hclosed : issue.isOpen = false) :
    (upsertModel (some issue) label signature signatureHash occurrence ruleName
        notifyThreshold now).2.1.kind = "reopened" ∧
    (upsertModel (some issue) label signature signatureHash occurrence ruleName
        notifyThreshold now).2.2 = [recurredComment] ∧
    (∀ issue2, (upsertModel (some issue) label signature signatureHash occurrence ruleName
        notifyThreshold now).1 = some issue2 →
      issue2.isOpen = true ∧
      ∀ (label2 sig2 hash2 : String) (occ2 : Occurrence) (rule2 : String)
        (thr2 now2 : Int),
        (upsertModel (some issue2) label2 sig2 hash2 occ2 rule2 thr2 now2).2.1.kind = "updated" ∧
        (upsertModel (some issue2) label2 sig2 hash2 occ2 rule2 thr2 now2).2.2 = []) ∧
    (∀ (store : Option IssueRec) (label3 sig3 hash3 : String) (occ3 : Occurrence)
      (rule3 : String) (thr3 now3 : Int) (issue3 : IssueRec),
      (upsertModel store label3 sig3 hash3 occ3 rule3 thr3 now3).1 = some issue3 →
      issue3.isOpen = true) := by
  refine ⟨?_, ?_, ?_, ?_⟩
  · simp [upsertModel, hclosed]
  · simp [upsertModel, hclosed]
  · intro issue2 h2
    simp only [upsertModel] at h2
    have hopen : issue2.isOpen = true := by
      cases h2; rfl
    refine ⟨hopen, ?_⟩
    intro label2 sig2 hash2 occ2 rule2 thr2 now2
    constructor
    · simp [upsertModel, hopen]
    · simp [upsertModel, hopen]
  · intro store label3 sig3 hash3 occ3 rule3 thr3 now3 issue3 h3
    cases store with
    | none => simp only [upsertModel] at h3; cases h3; rfl
    | some issue0 => simp only [upsertModel] at h3; cases h3; rfl

/-- Witness for C8: a concrete closed record is reopened with the
recurrence annotation. -/
theorem claim_C8_witness :
    (upsertModel (some ⟨7, "t", "x\n## Occurrences\n- 2024-01-01T00:00:00.000Z — u\n",
        ["L"], false⟩) "L" "ESLint: e" "h" ⟨"2024-01-02T00:00:00.000Z", "u", "", ""⟩
        "ESLint" 0 0).2.1.kind = "reopened" ∧
    (upsertModel (some ⟨7, "t", "x\n## Occurrences\n- 2024-01-01T00:00:00.000Z — u\n",
        ["L"], false⟩) "L" "ESLint: e" "h" ⟨"2024-01-02T00:00:00.000Z", "u", "", ""⟩
        "ESLint" 0 0).2.2 = [recurredComment] := by
  have h := claim_C8 ⟨7, "t", "x\n## Occurrences\n- 2024-01-01T00:00:00.000Z — u\n",
    ["L"], false⟩ "L" "ESLint: e" "h" ⟨"2024-01-02T00:00:00.000Z", "u", "", ""⟩
    "ESLint" 0 0 (by decide)
  exact ⟨h.1, h.2.1⟩

/-! ## Claim C1 — rule order, first match, and the generic fallback -/

/-! ## Claim C1 — classification order and the fallback vocabulary

The fallback regexes are compared with the claim's description of them
(`fallbackSpec`), which requires relating case-insensitive literal
matching and the `\b` assertion to direct string scans. -/

theorem char_toNat_ofNat (n : Nat) (h : n < 55296) : (Char.ofNat n).toNat = n := by
  unfold Char.ofNat
  split
  · rfl
  · rename_i hc
    exact absurd (by constructor; omega) hc

/-- ASCII case folding does not change word-character status. -/
theorem isJsWord_toLower (c : Char) : isJsWord c.toLower = isJsWord c := by
  have hle : ∀ a b : Char, (a ≤ b) = (a.toNat ≤ b.toNat) := fun a b => rfl
  have ca : ('a' : Char).toNat = 97 := rfl
  have cz : ('z' : Char).toNat = 122 := rfl
  have cA : ('A' : Char).toNat = 65 := rfl
  have cZ : ('Z' : Char).toNat = 90 := rfl
  have c0 : ('0' : Char).toNat = 48 := rfl
  have c9 : ('9' : Char).toNat = 57 := rfl
  rw [show c.toLower =
    (if c.toNat ≥ 65 ∧ c.toNat ≤ 90 then Char.ofNat (c.toNat + 32) else c) from rfl]
  split
  · rename_i h
    obtain ⟨h1, h2⟩ := h
    have hval : (Char.ofNat (c.toNat + 32)).toNat = c.toNat + 32 :=
      char_toNat_ofNat _ (by omega)
    have lhs : isJsWord (Char.ofNat (c.toNat + 32)) = true := by
      simp only [isJsWord, isJsDigit, Bool.or_eq_true, Bool.and_eq_true,
        decide_eq_true_eq, hle, ca, cz, cA, cZ, c0, c9]
      refine Or.inl (Or.inl (Or.inl ?_))
      rw [hval]
      omega
    have rhs : isJsWord c = true := by
      simp only [isJsWord, isJsDigit, Bool.or_eq_true, Bool.and_eq_true,
        decide_eq_true_eq, hle, ca, cz, cA, cZ, c0, c9]
      refine Or.inl (Or.inl (Or.inr ?_))
      omega
    rw [lhs, rhs]
  · rfl

/-- A character that case-folds onto a word character is a word
character. -/
theorem isJsWord_of_lower_eq (c d : Char) (h : c.toLower = d.toLower)
    (hd : isJsWord d = true) : isJsWord c = true := by
  rw [← isJsWord_toLower c, h, isJsWord_toLower d]
  exact hd

/-- Matching a chain of literal classes is exactly `ciStrip`. -/
theorem mAt_litsRe (ci m : Bool) :
    ∀ (cs : List Char) (p : Option Char) (s : List Char)
      (k : Option Char → List Char → Option (List Char)),
      mAt ci m (cats (cs.map (fun c => RE.cc (CC.lit c)))) p s k =
        (match ciStrip ci cs p s with
         | some e => k e.1 e.2
         | none => none) := by
  intro cs
  induction cs with
  | nil => intro p s k; rfl
  | cons a as ih =>
      intro p s k
      show mAt ci m (RE.cat (RE.cc (CC.lit a)) (cats (as.map _))) p s k = _
      cases s with
      | nil => rfl
      | cons b bs =>
          show (if ccTest ci (CC.lit a) b then
              mAt ci m (cats (as.map _)) (some b) bs k else none) = _
          by_cases hc : ccTest ci (CC.lit a) b = true
          · rw [if_pos hc, ih]
            show _ = (match ciStrip ci (a :: as) p (b :: bs) with
              | some e => k e.1 e.2 | none => none)
            simp [ciStrip, hc]
          · rw [if_neg hc]
            show _ = (match ciStrip ci (a :: as) p (b :: bs) with
              | some e => k e.1 e.2 | none => none)
            simp [ciStrip, hc]

/-- The literal chain consumes iff the case-folded pattern is a prefix of
the case-folded input. -/
theorem ciStrip_isSome (cs : List Char) :
    ∀ (p : Option Char) (s : List Char),
      (ciStrip true cs p s).isSome = isPrefCIL cs s := by
  induction cs with
  | nil => intro p s; rfl
  | cons a as ih =>
      intro p s
      cases s with
      | nil => simp [ciStrip, isPrefCIL, isPrefL]
      | cons b bs =>
          simp only [ciStrip, isPrefCIL, List.map_cons, isPrefL]
          by_cases hc : ccTest true (CC.lit a) b = true
          · rw [if_pos hc, ih]
            have : (a.toLower == b.toLower) = true := by
              simpa [ccTest, ciCharEq] using hc
            simp [this, isPrefCIL]
          · rw [if_neg hc]
            have : (a.toLower == b.toLower) = false := by
              simpa [ccTest, ciCharEq] using hc
            simp [this]

/-- What a successful literal-chain consumption leaves behind. -/
theorem ciStrip_some (cs : List Char) :
    ∀ (p p2 : Option Char) (s s2 : List Char),
      ciStrip true cs p s = some (p2, s2) →
      s2 = s.drop cs.length ∧
      ((cs = [] ∧ p2 = p) ∨
        (∃ c d, p2 = some c ∧ cs.getLast? = some d ∧ c.toLower = d.toLower)) := by
  induction cs with
  | nil =>
      intro p p2 s s2 h
      simp only [ciStrip, Option.some.injEq, Prod.mk.injEq] at h
      exact ⟨by simp [h.2.symm], Or.inl ⟨rfl, h.1.symm⟩⟩
  | cons a as ih =>
      intro p p2 s s2 h
      cases s with
      | nil => simp [ciStrip] at h
      | cons b bs =>
          simp only [ciStrip] at h
          by_cases hc : ccTest true (CC.lit a) b = true
          · rw [if_pos hc] at h
            obtain ⟨hdrop, hprev⟩ := ih (some b) p2 bs s2 h
            have hl : a.toLower = b.toLower := by
              simpa [ccTest, ciCharEq] using hc
            refine ⟨by simpa using hdrop, Or.inr ?_⟩
            rcases hprev with ⟨hnil, hp⟩ | ⟨c, d, hp, hlast, hcd⟩
            · subst hnil
              exact ⟨b, a, hp, rfl, hl.symm⟩
            · refine ⟨c, d, hp, ?_, hcd⟩
              cases as with
              | nil => simp at hlast
              | cons x xs =>
                  rw [List.getLast?_cons_cons]
                  exact hlast
          · rw [if_neg hc] at h
            exact absurd h (by simp)

theorem mAt_cat (ci m : Bool) (a b : RE) (p : Option Char) (s : List Char)
    (k : Option Char → List Char → Option (List Char)) :
    mAt ci m (RE.cat a b) p s k = mAt ci m a p s (fun p2 s2 => mAt ci m b p2 s2 k) := rfl

theorem mAt_wb (ci m : Bool) (p : Option Char) (s : List Char)
    (k : Option Char → List Char → Option (List Char)) :
    mAt ci m RE.wb p s k = if atWb p s then k p s else none := rfl

theorem mAt_alt (ci m : Bool) (a b : RE) (p : Option Char) (s : List Char)
    (k : Option Char → List Char → Option (List Char)) :
    mAt ci m (RE.alt a b) p s k =
      (match mAt ci m a p s k with
       | some r => some r
       | none => mAt ci m b p s k) := rfl

theorem strRe_eq (w : String) :
    strRe w = cats (w.data.map (fun c => RE.cc (CC.lit c))) := rfl

/-- The scanner succeeds iff the regex matches at some position. -/
theorem findMatchFrom_isSome (ci m : Bool) (re : RE) :
    ∀ (suf preRev : List Char),
      (findMatchFrom ci m re preRev suf).isSome = true ↔
      ∃ i, i ≤ suf.length ∧
        (matchHere ci m re ((suf.take i).reverse ++ preRev).head? (suf.drop i)).isSome = true := by
  intro suf
  induction suf with
  | nil =>
      intro preRev
      simp only [findMatchFrom]
      cases hm : matchHere ci m re preRev.head? [] with
      | some r =>
          simp only [Option.isSome_some, true_iff]
          exact ⟨0, by omega, by simpa using congrArg Option.isSome hm⟩
      | none =>
          simp only [Option.isSome_none]
          constructor
          · intro h; exact absurd h (by simp)
          · rintro ⟨i, hi, hmi⟩
            have : i = 0 := by simpa using hi
            subst this
            simp only [List.take_nil, List.reverse_nil, List.nil_append, List.drop_nil] at hmi
            rw [hm] at hmi
            exact absurd hmi (by simp)
  | cons a t ih =>
      intro preRev
      simp only [findMatchFrom]
      cases hm : matchHere ci m re preRev.head? (a :: t) with
      | some r =>
          simp only [Option.isSome_some, true_iff]
          exact ⟨0, by omega, by simpa using congrArg Option.isSome hm⟩
      | none =>
          rw [ih (a :: preRev)]
          constructor
          · rintro ⟨i, hi, hmi⟩
            refine ⟨i + 1, by simpa using hi, ?_⟩
            have he : ((a :: t).take (i + 1)).reverse ++ preRev =
                (t.take i).reverse ++ (a :: preRev) := by
              simp [List.take_cons]
            rw [he]
            simpa using hmi
          · rintro ⟨i, hi, hmi⟩
            cases i with
            | zero =>
                simp only [List.take_zero, List.reverse_nil, List.nil_append,
                  List.drop_zero] at hmi
                rw [hm] at hmi
                exact absurd hmi (by simp)
            | succ j =>
                refine ⟨j, by simpa using hi, ?_⟩
                have he : ((a :: t).take (j + 1)).reverse ++ preRev =
                    (t.take j).reverse ++ (a :: preRev) := by
                  simp [List.take_cons]
                rw [he] at hmi
                simpa using hmi

/-- `includesL` finds the pattern iff it starts at some position. -/
theorem includesL_iff (sub : List Char) :
    ∀ s : List Char, includesL s sub = true ↔
      ∃ i, i ≤ s.length ∧ isPrefL sub (s.drop i) = true := by
  intro s
  induction s with
  | nil =>
      rw [includesL]
      constructor
      · intro h
        split at h
        · exact ⟨0, by omega, by assumption⟩
        · exact absurd h (by simp)
      · rintro ⟨i, hi, hp⟩
        have : i = 0 := by simpa using hi
        subst this
        simp only [List.drop_nil] at hp
        simp [hp]
  | cons a t ih =>
      rw [includesL]
      by_cases hp : isPrefL sub (a :: t) = true
      · rw [if_pos hp]
        simp only [true_iff]
        exact ⟨0, by omega, hp⟩
      · rw [if_neg hp]
        rw [ih]
        constructor
        · rintro ⟨i, hi, hpi⟩
          exact ⟨i + 1, by simpa using hi, by simpa using hpi⟩
        · rintro ⟨i, hi, hpi⟩
          cases i with
          | zero => exact absurd (by simpa using hpi) hp
          | succ j => exact ⟨j, by simpa using hi, by simpa using hpi⟩

theorem matchHere_strRe (ci m : Bool) (w : String) (p : Option Char) (s : List Char) :
    (matchHere ci m (strRe w) p s).isSome = (ciStrip ci w.data p s).isSome := by
  unfold matchHere
  rw [strRe_eq, mAt_litsRe]
  cases ciStrip ci w.data p s with
  | some e => rfl
  | none => rfl

/-- `sub.test(l)` for a plain case-insensitive literal pattern is exactly
the claim's "contains the token, case-insensitively". -/
theorem reTest_strRe (sub l : String) :
    reTest true false (strRe sub) l = containsCI sub l := by
  rw [Bool.eq_iff_iff]
  show (findMatchFrom true false (strRe sub) [] l.data).isSome = true ↔ _
  rw [findMatchFrom_isSome]
  unfold containsCI
  rw [includesL_iff]
  constructor
  · rintro ⟨i, hi, hmi⟩
    rw [matchHere_strRe, ciStrip_isSome] at hmi
    refine ⟨i, by simpa using hi, ?_⟩
    unfold isPrefCIL at hmi
    rw [← List.map_drop]
    exact hmi
  · rintro ⟨i, hi, hpi⟩
    refine ⟨i, by simpa using hi, ?_⟩
    rw [matchHere_strRe, ciStrip_isSome]
    unfold isPrefCIL
    rw [List.map_drop]
    exact hpi

/-- At a position whose next character is a word character, the
word-boundary test only looks at the previous character. -/
theorem atWb_cons_left (p : Option Char) (b : Char) (t : List Char)
    (hb : isJsWord b = true) :
    atWb p (b :: t) =
      (match p with | none => true | some c => !isJsWord c) := by
  unfold atWb
  cases p with
  | none => simp [hb]
  | some c => cases hc : isJsWord c <;> simp [hb, hc]

/-- At a position whose previous character is a word character, the
word-boundary test only looks at the next character. -/
theorem atWb_prev_word (c : Char) (hc : isJsWord c = true) (s : List Char) :
    atWb (some c) s =
      (match s.head? with | none => true | some b => !isJsWord b) := by
  unfold atWb
  cases s with
  | nil => simp [hc]
  | cons b t => cases hb : isJsWord b <;> simp [hc, hb]

/-- The engine's view of one position for `\berror\b`-style patterns. -/
theorem matchHere_wordRe (w : String) (p : Option Char) (s : List Char) :
    (matchHere true false (cats [RE.wb, strRe w, RE.wb]) p s).isSome =
      (atWb p s &&
        (ciStrip true w.data p s).elim false (fun e => atWb e.1 e.2)) := by
  unfold matchHere
  show (mAt true false
    (RE.cat RE.wb (RE.cat (strRe w) (RE.cat RE.wb RE.eps))) p s _).isSome = _
  rw [mAt_cat, mAt_wb]
  by_cases hwb : atWb p s = true
  · rw [if_pos hwb, hwb, Bool.true_and]
    rw [mAt_cat, strRe_eq, mAt_litsRe]
    cases hs : ciStrip true w.data p s with
    | none => rfl
    | some e =>
        show (mAt true false (RE.cat RE.wb RE.eps) e.1 e.2 _).isSome =
          atWb e.1 e.2
        rw [mAt_cat, mAt_wb]
        by_cases hwb2 : atWb e.1 e.2 = true
        · rw [if_pos hwb2, hwb2]; rfl
        · rw [if_neg hwb2]
          have hf : atWb e.1 e.2 = false := by
            revert hwb2; cases atWb e.1 e.2 <;> simp
          rw [hf]; rfl
  · rw [if_neg hwb]
    have hf : atWb p s = false := by
      revert hwb; cases atWb p s <;> simp
    rw [hf, Bool.false_and]; rfl

/-- If the case-folded pattern is a prefix, the subject starts with a
character that case-folds onto the pattern's first character. -/
theorem isPrefCIL_head (w : List Char) (s : List Char) (a : Char)
    (hw : w.head? = some a) (h : isPrefCIL w s = true) :
    ∃ b t, s = b :: t ∧ a.toLower = b.toLower := by
  cases w with
  | nil => simp at hw
  | cons x xs =>
      cases s with
      | nil => simp [isPrefCIL, isPrefL] at h
      | cons b t =>
          simp only [List.head?_cons, Option.some.injEq] at hw
          subst hw
          simp only [isPrefCIL, List.map_cons, isPrefL, Bool.and_eq_true,
            beq_iff_eq] at h
          exact ⟨b, t, rfl, h.1⟩

/-- `\bw\b` tests true on a line exactly when the line has a
case-insensitive whole-word occurrence of `w` — provided `w` itself starts
and ends with word characters (as `"error"` does). -/
theorem reTest_wordRe (w l : String)
    (hne : w.data ≠ [])
    (hhead : ∀ a, w.data.head? = some a → isJsWord a = true)
    (hlast : ∀ a, w.data.getLast? = some a → isJsWord a = true) :
    reTest true false (cats [RE.wb, strRe w, RE.wb]) l = hasWordCI w l := by
  rw [Bool.eq_iff_iff]
  show (findMatchFrom true false _ [] l.data).isSome = true ↔ _
  rw [findMatchFrom_isSome]
  unfold hasWordCI
  rw [List.any_eq_true]
  constructor
  · rintro ⟨i, hi, hmi⟩
    rw [matchHere_wordRe, Bool.and_eq_true] at hmi
    obtain ⟨hwb1, hrest⟩ := hmi
    rw [show ((l.data.take i).reverse ++ ([] : List Char)).head? =
      (l.data.take i).getLast? from by simp] at hwb1 hrest
    cases hs : ciStrip true w.data (l.data.take i).getLast? (l.data.drop i) with
    | none => rw [hs] at hrest; simp at hrest
    | some e =>
        rw [hs] at hrest
        simp only [Option.elim] at hrest
        have hpref : isPrefCIL w.data (l.data.drop i) = true := by
          rw [← ciStrip_isSome w.data (l.data.take i).getLast? (l.data.drop i), hs]
          rfl
        obtain ⟨hdrop, hprev⟩ :=
          ciStrip_some w.data _ e.1 _ e.2 (by rw [hs])
        refine ⟨i, List.mem_range.mpr (by omega), ?_⟩
        rw [Bool.and_eq_true, Bool.and_eq_true]
        refine ⟨⟨hpref, ?_⟩, ?_⟩
        · obtain ⟨a0, ha0⟩ : ∃ a0, w.data.head? = some a0 := by
            cases hw : w.data with
            | nil => exact absurd hw hne
            | cons x xs => exact ⟨x, by simp⟩
          obtain ⟨b, t, hbt, hab⟩ := isPrefCIL_head w.data (l.data.drop i) a0 ha0 hpref
          have hbw : isJsWord b = true :=
            isJsWord_of_lower_eq b a0 hab.symm (hhead a0 ha0)
          rw [hbt, atWb_cons_left _ _ _ hbw] at hwb1
          exact hwb1
        · rcases hprev with ⟨hwnil, -⟩ | ⟨c, d, hpc, hlastc, hcd⟩
          · exact absurd hwnil hne
          · have hcw : isJsWord c = true :=
              isJsWord_of_lower_eq c d hcd (hlast d hlastc)
            rw [hpc, atWb_prev_word c hcw] at hrest
            have hdrop2 : l.data.drop (i + w.data.length) = e.2 := by
              rw [hdrop, List.drop_drop]
            rw [hdrop2]
            exact hrest
  · rintro ⟨i, hi, hcond⟩
    rw [Bool.and_eq_true, Bool.and_eq_true] at hcond
    obtain ⟨⟨hpref, hbefore⟩, hafter⟩ := hcond
    have hi2 : i ≤ l.data.length := by
      have := List.mem_range.mp hi
      omega
    refine ⟨i, hi2, ?_⟩
    rw [matchHere_wordRe]
    rw [show ((l.data.take i).reverse ++ ([] : List Char)).head? =
      (l.data.take i).getLast? from by simp]
    rw [Bool.and_eq_true]
    have hsome : (ciStrip true w.data (l.data.take i).getLast?
        (l.data.drop i)).isSome = true := by
      rw [ciStrip_isSome]
      exact hpref
    cases hs : ciStrip true w.data (l.data.take i).getLast? (l.data.drop i) with
    | none => rw [hs] at hsome; simp at hsome
    | some e =>
        obtain ⟨hdrop, hprev⟩ :=
          ciStrip_some w.data _ e.1 _ e.2 (by rw [hs])
        constructor
        · obtain ⟨a0, ha0⟩ : ∃ a0, w.data.head? = some a0 := by
            cases hw : w.data with
            | nil => exact absurd hw hne
            | cons x xs => exact ⟨x, by simp⟩
          obtain ⟨b, t, hbt, hab⟩ := isPrefCIL_head w.data (l.data.drop i) a0 ha0 hpref
          have hbw : isJsWord b = true :=
            isJsWord_of_lower_eq b a0 hab.symm (hhead a0 ha0)
          rw [hbt, atWb_cons_left _ _ _ hbw]
          exact hbefore
        · simp only [Option.elim]
          rcases hprev with ⟨hwnil, -⟩ | ⟨c, d, hpc, hlastc, hcd⟩
          · exact absurd hwnil hne
          · have hcw : isJsWord c = true :=
              isJsWord_of_lower_eq c d hcd (hlast d hlastc)
            rw [hpc, atWb_prev_word c hcw]
            have hdrop2 : l.data.drop (i + w.data.length) = e.2 := by
              rw [hdrop, List.drop_drop]
            rw [hdrop2] at hafter
            exact hafter

/-- `orElse` on options, at the `isSome` level. -/
theorem optOr_isSome (x y : Option (List Char)) :
    (match x with | some r => some r | none => y).isSome = (x.isSome || y.isSome) := by
  cases x <;> cases y <;> rfl

/-- Literal stripping distributes over append. -/
theorem ciStrip_append (ci : Bool) (xs : List Char) :
    ∀ (ys : List Char) (p : Option Char) (s : List Char),
      ciStrip ci (xs ++ ys) p s =
        (match ciStrip ci xs p s with
         | some e => ciStrip ci ys e.1 e.2
         | none => none) := by
  induction xs with
  | nil => intro ys p s; rfl
  | cons a as ih =>
      intro ys p s
      cases s with
      | nil => rfl
      | cons b bs =>
          simp only [List.cons_append, ciStrip]
          by_cases h : ccTest ci (CC.lit a) b = true
          · rw [if_pos h, if_pos h]
            exact ih ys (some b) bs
          · rw [if_neg h, if_neg h]

/-- Alternation at one position is the disjunction of the branches (the
two branches share the continuation, so this holds at the match level). -/
theorem matchHere_alt (ci m : Bool) (a b : RE) (p : Option Char) (s : List Char) :
    (matchHere ci m (RE.alt a b) p s).isSome =
      ((matchHere ci m a p s).isSome || (matchHere ci m b p s).isSome) := by
  unfold matchHere
  rw [mAt_alt]
  cases mAt ci m a p s (fun _ s2 => some s2) <;>
    cases mAt ci m b p s (fun _ s2 => some s2) <;> rfl

/-- Two regexes that agree position-by-position give the same `test`. -/
theorem reTest_congr (re₁ re₂ : RE)
    (h : ∀ p s, (matchHere true false re₁ p s).isSome = (matchHere true false re₂ p s).isSome)
    (l : String) :
    reTest true false re₁ l = reTest true false re₂ l := by
  rw [Bool.eq_iff_iff]
  show (findMatchFrom true false re₁ [] l.data).isSome = true ↔
    (findMatchFrom true false re₂ [] l.data).isSome = true
  rw [findMatchFrom_isSome, findMatchFrom_isSome]
  exact exists_congr fun i => and_congr_right fun hi => by rw [h]

/-- `test` distributes over alternation. -/
theorem reTest_or (rea reb : RE) (l : String) :
    reTest true false (RE.alt rea reb) l =
      (reTest true false rea l || reTest true false reb l) := by
  rw [Bool.eq_iff_iff, Bool.or_eq_true]
  show (findMatchFrom true false (RE.alt rea reb) [] l.data).isSome = true ↔
    ((findMatchFrom true false rea [] l.data).isSome = true ∨
     (findMatchFrom true false reb [] l.data).isSome = true)
  rw [findMatchFrom_isSome, findMatchFrom_isSome, findMatchFrom_isSome]
  constructor
  · rintro ⟨i, hi, hm⟩
    rw [matchHere_alt, Bool.or_eq_true] at hm
    rcases hm with h | h
    · exact Or.inl ⟨i, hi, h⟩
    · exact Or.inr ⟨i, hi, h⟩
  · rintro (⟨i, hi, h⟩ | ⟨i, hi, h⟩)
    · exact ⟨i, hi, by rw [matchHere_alt, Bool.or_eq_true]; exact Or.inl h⟩
    · exact ⟨i, hi, by rw [matchHere_alt, Bool.or_eq_true]; exact Or.inr h⟩

/-- One branch of the annotation-marker regex: the word then the closing
bracket, with the scanner's success continuation. -/
theorem annot_branch (w : String) (e1 : Option Char) (e2 : List Char) :
    (mAt true false (strRe w) e1 e2 (fun p2 s2 =>
       mAt true false (RE.cat (RE.cc (CC.lit ']')) RE.eps) p2 s2
         (fun _ s2 => some s2))).isSome =
      (ciStrip true (w.data ++ [']']) e1 e2).isSome := by
  rw [ciStrip_append, strRe_eq, mAt_litsRe]
  cases ciStrip true w.data e1 e2 with
  | none => rfl
  | some e =>
      show (mAt true false (RE.cat (RE.cc (CC.lit ']')) RE.eps) e.1 e.2 _).isSome =
        (ciStrip true [']'] e.1 e.2).isSome
      rw [show RE.cat (RE.cc (CC.lit ']')) RE.eps =
        cats (([']'] : List Char).map (fun c => RE.cc (CC.lit c))) from rfl, mAt_litsRe]
      cases ciStrip true [']'] e.1 e.2 with
      | none => rfl
      | some e3 => rfl

/-- Position-by-position, the annotation-marker regex is the alternation of
the four full literal markers. -/
theorem matchHere_annot_alt (p : Option Char) (s : List Char) :
    (matchHere true false annotMarkRe p s).isSome =
      (matchHere true false (RE.alt (strRe "##[group]")
        (RE.alt (strRe "##[endgroup]")
          (RE.alt (strRe "##[debug]") (strRe "##[notice]")))) p s).isSome := by
  rw [matchHere_alt, matchHere_alt, matchHere_alt,
      matchHere_strRe, matchHere_strRe, matchHere_strRe, matchHere_strRe]
  have hg : ("##[group]".data : List Char) = "##[".data ++ ("group".data ++ [']']) := rfl
  have he : ("##[endgroup]".data : List Char) = "##[".data ++ ("endgroup".data ++ [']']) := rfl
  have hd : ("##[debug]".data : List Char) = "##[".data ++ ("debug".data ++ [']']) := rfl
  have hn : ("##[notice]".data : List Char) = "##[".data ++ ("notice".data ++ [']']) := rfl
  rw [hg, he, hd, hn, ciStrip_append, ciStrip_append, ciStrip_append, ciStrip_append]
  unfold matchHere annotMarkRe
  show (mAt true false (RE.cat (strRe "##[")
    (RE.cat (RE.alt (strRe "group")
       (RE.alt (strRe "endgroup") (RE.alt (strRe "debug") (strRe "notice"))))
     (RE.cat (RE.cc (CC.lit ']')) RE.eps))) p s (fun _ s2 => some s2)).isSome = _
  rw [mAt_cat, strRe_eq, mAt_litsRe]
  cases h3 : ciStrip true ("##[".data : List Char) p s with
  | none => rfl
  | some e =>
      show (mAt true false (RE.cat (RE.alt (strRe "group")
          (RE.alt (strRe "endgroup") (RE.alt (strRe "debug") (strRe "notice"))))
        (RE.cat (RE.cc (CC.lit ']')) RE.eps)) e.1 e.2 (fun _ s2 => some s2)).isSome =
        ((ciStrip true ("group".data ++ [']']) e.1 e.2).isSome ||
         ((ciStrip true ("endgroup".data ++ [']']) e.1 e.2).isSome ||
          ((ciStrip true ("debug".data ++ [']']) e.1 e.2).isSome ||
           (ciStrip true ("notice".data ++ [']']) e.1 e.2).isSome)))
      rw [mAt_cat, mAt_alt, mAt_alt, mAt_alt,
          optOr_isSome, optOr_isSome, optOr_isSome,
          annot_branch, annot_branch, annot_branch, annot_branch]

/-- `annotRe.test(line)` is exactly "contains one of the four annotation
markers, case-insensitively". -/
theorem reTest_annot (l : String) :
    reTest true false annotMarkRe l =
      (containsCI "##[group]" l || containsCI "##[endgroup]" l ||
       containsCI "##[debug]" l || containsCI "##[notice]" l) := by
  rw [reTest_congr annotMarkRe _ matchHere_annot_alt l,
      reTest_or, reTest_or, reTest_or,
      reTest_strRe, reTest_strRe, reTest_strRe, reTest_strRe]
  cases containsCI "##[group]" l <;> cases containsCI "##[endgroup]" l <;>
    cases containsCI "##[debug]" l <;> cases containsCI "##[notice]" l <;> rfl

/-- The generic-vocabulary test is exactly the claim's three tokens. -/
theorem reTest_generic (l : String) :
    reTest true false genericVocabRe l =
      (hasWordCI "error" l || containsCI "exception" l || containsCI "failed" l) := by
  have herror_ne : ("error".data : List Char) ≠ [] := by decide
  have herror_head : ∀ a, ("error".data : List Char).head? = some a → isJsWord a = true := by
    intro a ha
    rw [show ("error".data : List Char).head? = some 'e' from rfl] at ha
    have h2 : 'e' = a := Option.some.inj ha
    rw [← h2]; decide
  have herror_last : ∀ a, ("error".data : List Char).getLast? = some a → isJsWord a = true := by
    intro a ha
    rw [show ("error".data : List Char).getLast? = some 'r' from by decide] at ha
    have h2 : 'r' = a := Option.some.inj ha
    rw [← h2]; decide
  rw [show genericVocabRe = RE.alt (cats [RE.wb, strRe "error", RE.wb])
        (RE.alt (strRe "exception") (strRe "failed")) from rfl,
      reTest_or, reTest_or, reTest_strRe, reTest_strRe,
      reTest_wordRe "error" l herror_ne herror_head herror_last]
  cases hasWordCI "error" l <;> cases containsCI "exception" l <;>
    cases containsCI "failed" l <;> rfl

/-- The fallback predicate of the source is, pointwise, the claim's
fallback predicate. -/
theorem fallbackPred_eq_spec (l : String) : fallbackPred l = fallbackSpec l := by
  unfold fallbackPred fallbackSpec
  rw [reTest_annot, reTest_generic]
  by_cases hl : l = ""
  · rw [if_pos hl, hl]
    simp
  · rw [if_neg hl]
    have hbe : (l == "") = false := beq_eq_false_iff_ne.mpr hl
    rw [hbe]
    cases h4 : (containsCI "##[group]" l || containsCI "##[endgroup]" l ||
        containsCI "##[debug]" l || containsCI "##[notice]" l) <;> simp

/-- `pickRules` returns `none` exactly when no rule matches any line. -/
theorem pickRules_none_iff (rules : List DetectRule) (lines : List String) :
    pickRules rules lines = none ↔ ∀ r ∈ rules, ∀ l ∈ lines, r.test l = false := by
  induction rules with
  | nil => simp [pickRules]
  | cons r rs ih =>
      cases hf : lines.findIdx? (fun l => r.test l) with
      | some idx =>
          have hpr : pickRules (r :: rs) lines =
              some ⟨r.name, lines.getD idx "", excerptAt lines idx, idx⟩ := by
            simp only [pickRules]
            rw [hf]
          rw [hpr]
          constructor
          · intro h
            exact Option.noConfusion h
          · intro hall
            have hnone : lines.findIdx? (fun l => r.test l) = none :=
              List.findIdx?_eq_none_iff.mpr (fun x hx => hall r (by simp) x hx)
            rw [hf] at hnone
            exact Option.noConfusion hnone
      | none =>
          have hpr : pickRules (r :: rs) lines = pickRules rs lines := by
            simp only [pickRules]
            rw [hf]
          rw [hpr, ih]
          constructor
          · intro h r2 hr2 l hl
            rcases List.mem_cons.mp hr2 with rfl | hr2
            · exact List.findIdx?_eq_none_iff.mp hf l hl
            · exact h r2 hr2 l hl
          · intro h r2 hr2 l hl
            exact h r2 (by simp [hr2]) l hl

/-- The hit `pickRules` returns comes from the first rule (in list order)
matching any line, at that rule's lowest-index matching line. -/
theorem pickRules_first (rules : List DetectRule) (lines : List String) (hit : Hit) :
    pickRules rules lines = some hit →
    ∃ k, k < rules.length ∧
      hit.rule = (rules.getD k noRule).name ∧
      (∀ j, j < k → ∀ l ∈ lines, (rules.getD j noRule).test l = false) ∧
      hit.lineIndex < lines.length ∧
      (rules.getD k noRule).test (lines.getD hit.lineIndex "") = true ∧
      (∀ j, j < hit.lineIndex → (rules.getD k noRule).test (lines.getD j "") = false) ∧
      hit.line = lines.getD hit.lineIndex "" ∧
      hit.excerpt = excerptAt lines hit.lineIndex := by
  induction rules generalizing hit with
  | nil => intro h; simp [pickRules] at h
  | cons r rs ih =>
      intro h
      cases hf : lines.findIdx? (fun l => r.test l) with
      | some idx =>
          have hpr : pickRules (r :: rs) lines =
              some ⟨r.name, lines.getD idx "", excerptAt lines idx, idx⟩ := by
            simp only [pickRules]
            rw [hf]
          rw [hpr] at h
          obtain ⟨hlt, hp, hprev⟩ := List.findIdx?_eq_some_iff_getElem.mp hf
          have h2 := Option.some.inj h
          subst h2
          refine ⟨0, by simp, rfl, ?_, hlt, ?_, ?_, rfl, rfl⟩
          · intro j hj
            exact absurd hj (by omega)
          · rw [List.getD_eq_getElem _ _ hlt]
            exact hp
          · intro j hj
            have hne := hprev j hj
            rw [Bool.not_eq_true] at hne
            rw [List.getD_eq_getElem _ _ (Nat.lt_trans hj hlt)]
            exact hne
      | none =>
          have hpr : pickRules (r :: rs) lines = pickRules rs lines := by
            simp only [pickRules]
            rw [hf]
          rw [hpr] at h
          obtain ⟨k, hk, hrule, hbefore, hlt, htest, hfirst, hline, hexc⟩ := ih hit h
          refine ⟨k + 1, by simp only [List.length_cons]; omega,
            ?_, ?_, hlt, ?_, ?_, hline, hexc⟩
          · rw [List.getD_cons_succ]
            exact hrule
          · intro j hj
            cases j with
            | zero =>
                intro l hl
                rw [List.getD_cons_zero]
                exact List.findIdx?_eq_none_iff.mp hf l hl
            | succ j2 =>
                intro l hl
                rw [List.getD_cons_succ]
                exact hbefore j2 (by omega) l hl
          · rw [List.getD_cons_succ]
            exact htest
          · intro j hj
            rw [List.getD_cons_succ]
            exact hfirst j hj

/-- **C1.** Classification evaluates `[...customRules, ...builtinRules]` in
order: the hit comes from the first rule in that list matching any line, at
that rule's lowest-index matching line; if no declared rule matches, the
fallback scan returns the first non-empty, non-annotation line containing a
case-insensitive `"error"` word or `"exception"`/`"failed"` token,
classified `"Generic"`; if that finds nothing the result is `none`. -/
theorem claim_C1 (lines : List String) (customRules : List DetectRule) :
    (∀ hit, pickFirstMeaningfulError lines customRules = some hit →
      ((∃ k, k < (customRules ++ builtinRules).length ∧
        hit.rule = ((customRules ++ builtinRules).getD k noRule).name ∧
        (∀ j, j < k → ∀ l ∈ lines,
          ((customRules ++ builtinRules).getD j noRule).test l = false) ∧
        hit.lineIndex < lines.length ∧
        ((customRules ++ builtinRules).getD k noRule).test
          (lines.getD hit.lineIndex "") = true ∧
        (∀ j, j < hit.lineIndex →
          ((customRules ++ builtinRules).getD k noRule).test
            (lines.getD j "") = false) ∧
        hit.line = lines.getD hit.lineIndex "") ∨
       (hit.rule = "Generic" ∧
        (∀ r ∈ customRules ++ builtinRules, ∀ l ∈ lines, r.test l = false) ∧
        hit.lineIndex < lines.length ∧
        fallbackSpec (lines.getD hit.lineIndex "") = true ∧
        (∀ j, j < hit.lineIndex → fallbackSpec (lines.getD j "") = false) ∧
        hit.line = lines.getD hit.lineIndex ""))) ∧
    (pickFirstMeaningfulError lines customRules = none ↔
      ((∀ r ∈ customRules ++ builtinRules, ∀ l ∈ lines, r.test l = false) ∧
       ∀ l ∈ lines, fallbackSpec l = false)) := by
  have hfun : lines.findIdx? fallbackPred = lines.findIdx? fallbackSpec := by
    congr 1
    exact funext fallbackPred_eq_spec
  constructor
  · intro hit h
    unfold pickFirstMeaningfulError at h
    cases hp : pickRules (customRules ++ builtinRules) lines with
    | some h0 =>
        rw [hp] at h
        cases h
        left
        obtain ⟨k, hk, hrule, hbefore, hlt, htest, hfirst, hline, -⟩ :=
          pickRules_first _ lines _ hp
        exact ⟨k, hk, hrule, hbefore, hlt, htest, hfirst, hline⟩
    | none =>
        rw [hp, hfun] at h
        cases hfi : lines.findIdx? fallbackSpec with
        | some idx =>
            rw [hfi] at h
            cases h
            right
            obtain ⟨hlt, hsp, hprev⟩ := List.findIdx?_eq_some_iff_getElem.mp hfi
            refine ⟨rfl, (pickRules_none_iff _ lines).mp hp, hlt, ?_, ?_, rfl⟩
            · rw [List.getD_eq_getElem _ _ hlt]
              exact hsp
            · intro j hj
              have hne := hprev j hj
              rw [Bool.not_eq_true] at hne
              rw [List.getD_eq_getElem _ _ (Nat.lt_trans hj hlt)]
              exact hne
        | none =>
            rw [hfi] at h
            exact Option.noConfusion h
  · unfold pickFirstMeaningfulError
    cases hp : pickRules (customRules ++ builtinRules) lines with
    | some h0 =>
        constructor
        · intro h
          exact Option.noConfusion h
        · rintro ⟨hall, -⟩
          have hn := (pickRules_none_iff _ lines).mpr hall
          rw [hp] at hn
          exact Option.noConfusion hn
    | none =>
        rw [hfun]
        cases hfi : lines.findIdx? fallbackSpec with
        | some idx =>
            constructor
            · intro h
              exact Option.noConfusion h
            · rintro ⟨-, hall⟩
              have hn : lines.findIdx? fallbackSpec = none :=
                List.findIdx?_eq_none_iff.mpr (fun l hl => hall l hl)
              rw [hfi] at hn
              exact Option.noConfusion hn
        | none =>
            exact iff_of_true rfl
              ⟨(pickRules_none_iff _ lines).mp hp, List.findIdx?_eq_none_iff.mp hfi⟩

/-- **C1, exercised.** On a concrete log with one custom rule, the
none-characterization of the classifier instantiates. -/
theorem claim_C1_witness :
    pickFirstMeaningfulError ["x", "BOOM"] [⟨"Custom", fun l => l == "BOOM"⟩] = none ↔
      ((∀ r ∈ [(⟨"Custom", fun l => l == "BOOM"⟩ : DetectRule)] ++ builtinRules,
        ∀ l ∈ (["x", "BOOM"] : List String), r.test l = false) ∧
       ∀ l ∈ (["x", "BOOM"] : List String), fallbackSpec l = false) :=
  (claim_C1 ["x", "BOOM"] [⟨"Custom", fun l => l == "BOOM"⟩]).2

/-! ## Claim C3 — statistics recomputed from the stored history -/

theorem mAt_bol (ci m : Bool) (p : Option Char) (s : List Char)
    (k : Option Char → List Char → Option (List Char)) :
    mAt ci m RE.bol p s k =
      if (match p with | none => true | some c => m && isLineTerm c) then k p s else none := rfl

theorem mAt_eol (ci m : Bool) (p : Option Char) (s : List Char)
    (k : Option Char → List Char → Option (List Char)) :
    mAt ci m RE.eol p s k =
      if (match s with | [] => true | h :: _ => m && isLineTerm h) then k p s else none := rfl

/-- Every state listed by `ccStates` is reached by consuming a prefix of
characters that all pass the class test. -/
theorem ccStates_elem (ci : Bool) (c : CC) :
    ∀ (bound : Nat) (p : Option Char) (s : List Char) (st : Option Char × List Char),
      st ∈ ccStates ci c bound p s →
      ∃ n, st.2 = s.drop n ∧ ∀ ch ∈ s.take n, ccTest ci c ch = true := by
  intro bound
  induction bound with
  | zero =>
      intro p s st hst
      simp only [ccStates, List.mem_singleton] at hst
      subst hst
      exact ⟨0, rfl, by simp⟩
  | succ b ih =>
      intro p s st hst
      simp only [ccStates] at hst
      rcases List.mem_cons.mp hst with rfl | hst2
      · exact ⟨0, rfl, by simp⟩
      · cases s with
        | nil => simp at hst2
        | cons h t =>
            have hst3 : st ∈ (if ccTest ci c h = true then ccStates ci c b (some h) t else []) :=
              hst2
            by_cases hcc : ccTest ci c h = true
            · rw [if_pos hcc] at hst3
              obtain ⟨n, hdrop, hall⟩ := ih (some h) t st hst3
              refine ⟨n + 1, by simpa using hdrop, ?_⟩
              intro ch hch
              simp only [List.take_succ_cons, List.mem_cons] at hch
              rcases hch with rfl | hch
              · exact hcc
              · exact hall ch hch
            · rw [if_neg hcc] at hst3
              simp at hst3

/-- A successful repetition consumed a run of characters that all pass the
class test, and handed the continuation the rest. -/
theorem mAt_rep_forward (ci m : Bool) (c : CC) (lo : Nat) (hi : Option Nat)
    (p : Option Char) (s : List Char)
    (k : Option Char → List Char → Option (List Char)) (r : List Char)
    (h : mAt ci m (RE.rep c lo hi) p s k = some r) :
    ∃ n p2, (∀ ch ∈ s.take n, ccTest ci c ch = true) ∧ k p2 (s.drop n) = some r := by
  simp only [mAt] at h
  obtain ⟨e, he, hfe⟩ := List.exists_of_findSome?_eq_some h
  rw [List.mem_reverse] at he
  have he2 := mem_withIdx _ _ _ he
  obtain ⟨n, hdrop, hall⟩ := ccStates_elem ci c _ p s e.2 he2
  by_cases hlo : lo ≤ e.1
  · rw [if_pos hlo] at hfe
    exact ⟨n, e.2.1, hall, by rw [← hdrop]; exact hfe⟩
  · rw [if_neg hlo] at hfe
    exact absurd hfe (by simp)

/-- Case-sensitive literal stripping succeeds only on the literal prefix
itself. -/
theorem ciStrip_false_some :
    ∀ (w : List Char) (p : Option Char) (s : List Char) (e : Option Char × List Char),
      ciStrip false w p s = some e → s = w ++ e.2 := by
  intro w
  induction w with
  | nil =>
      intro p s e h
      simp only [ciStrip, Option.some.injEq] at h
      cases h
      rfl
  | cons a as ih =>
      intro p s e h
      cases s with
      | nil => simp [ciStrip] at h
      | cons b bs =>
          simp only [ciStrip] at h
          by_cases hcc : ccTest false (CC.lit a) b = true
          · rw [if_pos hcc] at h
            have hab : a = b := by
              simpa [ccTest, ciCharEq] using hcc
            rw [List.cons_append, ← ih (some b) bs e h, hab]
          · rw [if_neg hcc] at h
            exact absurd h (by simp)

/-- The scanner's successful output satisfies `matchHere` at the reported
position. -/
theorem findMatchFrom_matchHere (ci m : Bool) (re : RE) :
    ∀ (suf preRev pR mt rest : List Char),
      findMatchFrom ci m re preRev suf = some (pR, mt, rest) →
      matchHere ci m re pR.head? (mt ++ rest) = some rest := by
  intro suf
  induction suf with
  | nil =>
      intro preRev pR mt rest h
      simp only [findMatchFrom] at h
      cases hmh : matchHere ci m re preRev.head? [] with
      | some r0 =>
          rw [hmh] at h
          simp only [Option.some.injEq, Prod.mk.injEq] at h
          obtain ⟨h1, h2, h3⟩ := h
          subst h1
          subst h3
          have hr0 : r0 = [] :=
            List.eq_nil_of_suffix_nil (matchHere_suffix ci m re preRev.head? [] r0 hmh)
          subst hr0
          rw [← h2]
          simpa using hmh
      | none =>
          rw [hmh] at h
          exact absurd h (by simp)
  | cons a t ih =>
      intro preRev pR mt rest h
      simp only [findMatchFrom] at h
      cases hmh : matchHere ci m re preRev.head? (a :: t) with
      | some r0 =>
          rw [hmh] at h
          simp only [Option.some.injEq, Prod.mk.injEq] at h
          obtain ⟨h1, h2, h3⟩ := h
          subst h1
          subst h3
          obtain ⟨t0, ht0⟩ := matchHere_suffix ci m re preRev.head? (a :: t) r0 hmh
          have hlen : (a :: t).length - r0.length = t0.length := by
            rw [← ht0]
            simp
          rw [← h2, hlen, ← ht0, List.take_left, ht0]
          exact hmh
      | none =>
          rw [hmh] at h
          exact ih (a :: preRev) pR mt rest h

/-- Forward characterization of a `statsLineRe` match: it sits at a line
start, consumes the literal `**Last 7d:**` and then characters that are
not line terminators. -/
theorem matchHere_statsLineRe_forward (p : Option Char) (s rest : List Char)
    (h : matchHere false true statsLineRe p s = some rest) :
    (p = none ∨ ∃ c, p = some c ∧ isLineTerm c = true) ∧
    ∃ mid, s = "**Last 7d:**".data ++ mid ++ rest ∧
      ∀ ch ∈ mid, isLineTerm ch = false := by
  unfold matchHere at h
  rw [show statsLineRe =
    RE.cat RE.bol (RE.cat (strRe "**Last 7d:**")
      (RE.cat (plusRe CC.any) (RE.cat RE.eol RE.eps))) from rfl] at h
  rw [mAt_cat, mAt_bol] at h
  split at h
  case isFalse => exact absurd h (by simp)
  case isTrue hpb =>
    have pfact : p = none ∨ ∃ c, p = some c ∧ isLineTerm c = true := by
      cases p with
      | none => exact Or.inl rfl
      | some c =>
          right
          exact ⟨c, rfl, by simpa using hpb⟩
    rw [mAt_cat, strRe_eq, mAt_litsRe] at h
    cases hcs : ciStrip false ("**Last 7d:**".data) p s with
    | none =>
        rw [hcs] at h
        exact absurd h (by simp)
    | some e =>
        rw [hcs] at h
        have h3 : mAt false true (RE.cat (plusRe CC.any) (RE.cat RE.eol RE.eps)) e.1 e.2
            (fun _ s2 => some s2) = some rest := h
        rw [mAt_cat] at h3
        obtain ⟨n, p2, hall, hk⟩ := mAt_rep_forward false true CC.any 1 none e.1 e.2 _ rest h3
        rw [mAt_cat, mAt_eol] at hk
        split at hk
        case isFalse => exact absurd hk (by simp)
        case isTrue heol =>
          have hrest : e.2.drop n = rest := Option.some.inj hk
          refine ⟨pfact, e.2.take n, ?_, ?_⟩
          · rw [ciStrip_false_some _ p s e hcs, ← hrest, List.append_assoc,
              List.take_append_drop]
          · intro ch hch
            have h2 := hall ch hch
            simpa [ccTest] using h2

/-- Forward characterization of an `occHeaderRe` match: it sits at a line
start and consumes exactly the literal `## Occurrences`. -/
theorem matchHere_occHeaderRe_forward (p : Option Char) (s rest : List Char)
    (h : matchHere false true occHeaderRe p s = some rest) :
    (p = none ∨ ∃ c, p = some c ∧ isLineTerm c = true) ∧
    s = "## Occurrences".data ++ rest := by
  unfold matchHere occHeaderRe at h
  rw [mAt_cat, mAt_bol] at h
  split at h
  case isFalse => exact absurd h (by simp)
  case isTrue hpb =>
    have pfact : p = none ∨ ∃ c, p = some c ∧ isLineTerm c = true := by
      cases p with
      | none => exact Or.inl rfl
      | some c =>
          right
          exact ⟨c, rfl, by simpa using hpb⟩
    rw [strRe_eq, mAt_litsRe] at h
    cases hcs : ciStrip false ("## Occurrences".data) p s with
    | none =>
        rw [hcs] at h
        exact absurd h (by simp)
    | some e =>
        rw [hcs] at h
        have hrest : e.2 = rest := by
          simpa using h
        refine ⟨pfact, ?_⟩
        rw [ciStrip_false_some _ p s e hcs, hrest]

theorem splitLines_ne_nil : ∀ cs : List Char, splitLines cs ≠ [] := by
  intro cs
  cases cs with
  | nil => simp [splitLines]
  | cons c cs =>
      unfold splitLines
      split
      · simp
      · split
        · simp
        · simp

/-- Reconstruct a nonempty list from head and tail. -/
theorem headD_cons_tail {α : Type} (L : List (List α)) (h : L ≠ []) :
    L.headD [] :: L.tail = L := by
  cases L with
  | nil => exact absurd rfl h
  | cons x xs => rfl

/-- One step of `splitLines` at a line terminator. -/
theorem splitLines_cons_term (c : Char) (hc : isLineTerm c = true) (cs : List Char) :
    splitLines (c :: cs) = [] :: splitLines cs := by
  show (if isLineTerm c = true then [] :: splitLines cs
    else match splitLines cs with
         | l :: ls => (c :: l) :: ls
         | [] => [[c]]) = [] :: splitLines cs
  rw [hc]
  simp

/-- One step of `splitLines` at an ordinary character. -/
theorem splitLines_cons_noterm (c : Char) (hc : isLineTerm c = false) (cs : List Char) :
    splitLines (c :: cs) = (c :: (splitLines cs).headD []) :: (splitLines cs).tail := by
  show (if isLineTerm c = true then [] :: splitLines cs
    else match splitLines cs with
         | l :: ls => (c :: l) :: ls
         | [] => [[c]]) = _
  rw [hc]
  simp only [Bool.false_eq_true, if_false]
  cases hcs : splitLines cs with
  | nil => exact absurd hcs (splitLines_ne_nil cs)
  | cons l ls => rfl

/-- Splitting the line structure of an append: the last line of `a` merges
with the first line of `b`. -/
theorem splitLines_append :
    ∀ (a b : List Char),
      splitLines (a ++ b) =
        (splitLines a).dropLast ++
          ((splitLines a).getLastD [] ++ (splitLines b).headD []) :: (splitLines b).tail := by
  intro a
  induction a with
  | nil =>
      intro b
      cases hb : splitLines b with
      | nil => exact absurd hb (splitLines_ne_nil b)
      | cons l ls =>
          rw [List.nil_append, hb]
          simp [splitLines]
  | cons x xs ih =>
      intro b
      cases hx : isLineTerm x with
      | true =>
          rw [List.cons_append, splitLines_cons_term x hx (xs ++ b),
            splitLines_cons_term x hx xs, ih b]
          cases hxs : splitLines xs with
          | nil => exact absurd hxs (splitLines_ne_nil xs)
          | cons l ls => simp
      | false =>
          rw [List.cons_append, splitLines_cons_noterm x hx (xs ++ b),
            splitLines_cons_noterm x hx xs, ih b]
          cases hxs : splitLines xs with
          | nil => exact absurd hxs (splitLines_ne_nil xs)
          | cons l ls =>
              cases ls with
              | nil => simp
              | cons l2 ls2 => simp

/-- A chunk with no line terminator is a single line. -/
theorem splitLines_noterm (y : List Char) (h : ∀ ch ∈ y, isLineTerm ch = false) :
    splitLines y = [y] := by
  induction y with
  | nil => rfl
  | cons c cs ih =>
      have hc : isLineTerm c = false := h c (List.mem_cons_self c cs)
      have ih2 := ih (fun ch hch => h ch (List.mem_cons_of_mem c hch))
      rw [splitLines_cons_noterm c hc cs, ih2]
      rfl

/-- A chunk ending in a line terminator has an empty last line. -/
theorem splitLines_getLastD_term (sk : List Char) (c : Char)
    (hlast : sk.getLast? = some c) (hc : isLineTerm c = true) :
    (splitLines sk).getLastD [] = [] := by
  obtain ⟨ys, hys⟩ := List.getLast?_eq_some_iff.mp hlast
  subst hys
  rw [splitLines_append ys [c]]
  rw [show splitLines [c] = [[], []] from by
    rw [splitLines_cons_term c hc []]
    rfl]
  simp

/-- Lines of `skipped ++ x` when `skipped` is empty or ends in a line
terminator (the situation `^` guarantees): the lines of `skipped` minus its
empty last line, then the lines of `x`. -/
theorem splitLines_split_at_bol (sk x : List Char)
    (h : sk = [] ∨ ∃ c, sk.getLast? = some c ∧ isLineTerm c = true) :
    splitLines (sk ++ x) = (splitLines sk).dropLast ++ splitLines x := by
  rcases h with rfl | ⟨c, hlast, hc⟩
  · simp [splitLines]
  · rw [splitLines_append sk x, splitLines_getLastD_term sk c hlast hc]
    rw [List.nil_append, headD_cons_tail _ (splitLines_ne_nil x)]

/-- A line starting with anything but `-` is not an occurrence bullet. -/
theorem lineParse_ne_dash (c : Char) (hc : ¬c = '-') (l : List Char) :
    lineParse (c :: l) = none := by
  unfold lineParse
  split
  · rename_i rest heq
    rw [List.cons.injEq] at heq
    exact absurd heq.1 hc
  · rfl

/-- Prepending an unparseable terminator-free chunk to the text removes
exactly the first line of what follows from the parse. -/
theorem fm_prefixed_line (y rest : List Char)
    (hterm : ∀ ch ∈ y, isLineTerm ch = false)
    (hnp : ∀ z, lineParse (y ++ z) = none) :
    (splitLines (y ++ rest)).filterMap lineParse =
      ((splitLines rest).tail).filterMap lineParse := by
  rw [splitLines_append y rest, splitLines_noterm y hterm]
  simp only [List.dropLast_single, List.getLastD_eq_getLast?, List.getLast?_singleton,
    Option.getD_some, List.nil_append]
  rw [List.filterMap_cons]
  rw [hnp ((splitLines rest).headD [])]

/-- Base-10 digit characters are `\d` characters. -/
theorem digitChar_isDigit (m : Nat) (h : m < 10) : isJsDigit (Nat.digitChar m) = true := by
  interval_cases m <;> decide

theorem toDigitsCore_digits :
    ∀ (fuel n : Nat) (ds : List Char), (∀ c ∈ ds, isJsDigit c = true) →
      ∀ c ∈ Nat.toDigitsCore 10 fuel n ds, isJsDigit c = true := by
  intro fuel
  induction fuel with
  | zero =>
      intro n ds hds c hc
      exact hds c hc
  | succ f ih =>
      intro n ds hds c hc
      rw [show Nat.toDigitsCore 10 (f + 1) n ds =
        (if n / 10 = 0 then Nat.digitChar (n % 10) :: ds
         else Nat.toDigitsCore 10 f (n / 10) (Nat.digitChar (n % 10) :: ds)) from rfl] at hc
      have hcons : ∀ c2 ∈ Nat.digitChar (n % 10) :: ds, isJsDigit c2 = true := by
        intro c2 hc2
        rcases List.mem_cons.mp hc2 with rfl | hc2
        · exact digitChar_isDigit _ (Nat.mod_lt _ (by omega))
        · exact hds c2 hc2
      by_cases hz : n / 10 = 0
      · rw [if_pos hz] at hc
        exact hcons c hc
      · rw [if_neg hz] at hc
        exact ih (n / 10) _ hcons c hc

/-- `String(n)` for a `Nat` is all digits. -/
theorem toString_nat_digits (n : Nat) :
    ∀ c ∈ (toString n).data, isJsDigit c = true := by
  intro c hc
  have heq : (toString n).data = Nat.toDigits 10 n := rfl
  rw [heq] at hc
  exact toDigitsCore_digits (n + 1) n [] (by simp) c hc

/-- A digit character is not a line terminator, a dash, or a dollar. -/
theorem digit_char_props (c : Char) (h : isJsDigit c = true) :
    isLineTerm c = false ∧ ¬c = '-' ∧ ¬c = '$' := by
  have hle : ∀ a b : Char, (a ≤ b) = (a.toNat ≤ b.toNat) := fun a b => rfl
  simp only [isJsDigit, Bool.and_eq_true, decide_eq_true_eq, hle,
    show ('0' : Char).toNat = 48 from rfl, show ('9' : Char).toNat = 57 from rfl] at h
  refine ⟨?_, ?_, ?_⟩
  · simp only [isLineTerm, Bool.or_eq_false_iff, decide_eq_false_iff_not]
    refine ⟨⟨⟨?_, ?_⟩, ?_⟩, ?_⟩ <;>
      · intro heq
        have h2 := congrArg Char.toNat heq
        simp only [show ('\n' : Char).toNat = 10 from rfl,
          show ('\r' : Char).toNat = 13 from rfl,
          show (' ' : Char).toNat = 8232 from rfl,
          show (' ' : Char).toNat = 8233 from rfl] at h2
        omega
  · intro heq
    have h2 := congrArg Char.toNat heq
    simp only [show ('-' : Char).toNat = 45 from rfl] at h2
    omega
  · intro heq
    have h2 := congrArg Char.toNat heq
    simp only [show ('$' : Char).toNat = 36 from rfl] at h2
    omega

/-- Replacement strings without `$` are substituted literally. -/
theorem processRepl_no_dollar (mt pre post : List Char) :
    ∀ repl : List Char, (∀ c ∈ repl, ¬c = '$') →
      processReplGo mt pre post repl = repl := by
  intro repl
  induction repl with
  | nil => intro _; rfl
  | cons c t ih =>
      intro hd
      have hc : ¬c = '$' := hd c (List.mem_cons_self c t)
      have ht := ih (fun c2 hc2 => hd c2 (List.mem_cons_of_mem c hc2))
      unfold processReplGo
      split
      · rename_i rest heq
        exact List.noConfusion heq
      · rename_i t2 heq
        rw [List.cons.injEq] at heq
        exact absurd heq.1 hc
      · rename_i x c2 t2 hne heq
        rw [List.cons.injEq] at heq
        obtain ⟨h1, h2⟩ := heq
        subst h1
        subst h2
        rw [ht]

/-- The rendered stats line decomposed into its four chunks. -/
theorem statsLine_data (stats : WindowStats) :
    (statsLineStr stats).data =
      "**Last 7d:** ".data ++ ((toString stats.last7).data ++
        (" | **Last 14d:** ".data ++ (toString stats.last14).data)) := by
  simp [statsLineStr, String.data_append]

/-- Characters of the rendered stats line: no line terminators, no `$`. -/
theorem statsLine_chars (stats : WindowStats) :
    ∀ c ∈ (statsLineStr stats).data, isLineTerm c = false ∧ ¬c = '$' := by
  intro c hc
  rw [statsLine_data] at hc
  rcases List.mem_append.mp hc with h1 | h23
  · exact (by decide : ∀ c2 ∈ ("**Last 7d:** ".data : List Char),
      isLineTerm c2 = false ∧ ¬c2 = '$') c h1
  · rcases List.mem_append.mp h23 with h2 | h34
    · obtain ⟨ht, -, hdol⟩ := digit_char_props c (toString_nat_digits _ c h2)
      exact ⟨ht, hdol⟩
    · rcases List.mem_append.mp h34 with h3 | h4
      · exact (by decide : ∀ c2 ∈ (" | **Last 14d:** ".data : List Char),
          isLineTerm c2 = false ∧ ¬c2 = '$') c h3
      · obtain ⟨ht, -, hdol⟩ := digit_char_props c (toString_nat_digits _ c h4)
        exact ⟨ht, hdol⟩

/-- Lines beginning with the rendered stats line are never occurrence
bullets. -/
theorem statsLine_unparseable (stats : WindowStats) (z : List Char) :
    lineParse ((statsLineStr stats).data ++ z) = none := by
  rw [statsLine_data,
    show ("**Last 7d:** ".data : List Char) = '*' :: "*Last 7d:** ".data from rfl,
    List.cons_append, List.cons_append]
  exact lineParse_ne_dash '*' (by decide) _

theorem string_mk_data (l : List Char) : (String.mk l).data = l := rfl

/-- An empty line contributes nothing to the parse. -/
theorem filterMap_lineParse_nil_cons (L : List (List Char)) :
    (([] : List Char) :: L).filterMap lineParse = L.filterMap lineParse := rfl

/-- Lines beginning with the `**Last 7d:**` literal are never occurrence
bullets. -/
theorem statsLit_unparseable (mid z : List Char) :
    lineParse (("**Last 7d:**".data ++ mid) ++ z) = none := by
  rw [show ("**Last 7d:**".data : List Char) = '*' :: "*Last 7d:**".data from rfl,
    List.cons_append, List.cons_append]
  exact lineParse_ne_dash '*' (by decide) _

/-- Lines beginning with the `## Occurrences` literal are never occurrence
bullets. -/
theorem occHeader_unparseable (z : List Char) :
    lineParse ("## Occurrences".data ++ z) = none := by
  rw [show ("## Occurrences".data : List Char) = '#' :: "# Occurrences".data from rfl,
    List.cons_append]
  exact lineParse_ne_dash '#' (by decide) _

/-- The stats-line rewrite (`appendStatsLine`) never adds or removes an
occurrence bullet: the parsed occurrence history of the body is unchanged. -/
theorem parse_append_stats (b : String) (stats : WindowStats) :
    parseOccurrenceTimestamps (appendStatsLine b stats) = parseOccurrenceTimestamps b := by
  simp only [parseOccurrenceTimestamps, appendStatsLine]
  by_cases hre : reTest false true statsLineRe b = true
  · rw [if_pos hre]
    cases hm : findMatchFrom false true statsLineRe [] b.data with
    | none =>
        have hfalse : reTest false true statsLineRe b = false := by
          show (findMatchFrom false true statsLineRe [] b.data).isSome = false
          rw [hm]
          rfl
        rw [hfalse] at hre
        exact absurd hre (by simp)
    | some trip =>
        obtain ⟨pR, mt, rest⟩ := trip
        have hrw : replaceFirstL false true statsLineRe (statsLineStr stats).data b.data =
            pR.reverse ++ processReplGo mt pR.reverse rest (statsLineStr stats).data ++ rest := by
          unfold replaceFirstL
          rw [hm]
        rw [string_mk_data, hrw]
        obtain ⟨skipped, hpR, hsplit⟩ :=
          findMatchFrom_decomp false true statsLineRe b.data [] pR mt rest hm
        rw [List.append_assoc] at hsplit
        have hmh := findMatchFrom_matchHere false true statsLineRe b.data [] pR mt rest hm
        have hhead : pR.head? = skipped.getLast? := by
          rw [hpR]
          simp
        rw [hhead] at hmh
        obtain ⟨hbol, mid, hmt, hmidterm⟩ :=
          matchHere_statsLineRe_forward skipped.getLast? (mt ++ rest) rest hmh
        have hmt2 : mt = "**Last 7d:**".data ++ mid := List.append_cancel_right hmt
        have hprev : pR.reverse = skipped := by
          rw [hpR]
          simp
        rw [hprev, processRepl_no_dollar _ _ _ _
          (fun c hc => (statsLine_chars stats c hc).2), hsplit, List.append_assoc]
        have hsk : skipped = [] ∨ ∃ c, skipped.getLast? = some c ∧ isLineTerm c = true := by
          rcases hbol with hnone | hsome
          · exact Or.inl (List.getLast?_eq_none_iff.mp hnone)
          · exact Or.inr hsome
        rw [splitLines_split_at_bol skipped ((statsLineStr stats).data ++ rest) hsk,
          splitLines_split_at_bol skipped (mt ++ rest) hsk,
          List.filterMap_append, List.filterMap_append]
        congr 1
        rw [hmt2]
        rw [fm_prefixed_line (statsLineStr stats).data rest
          (fun c hc => (statsLine_chars stats c hc).1)
          (statsLine_unparseable stats)]
        rw [fm_prefixed_line ("**Last 7d:**".data ++ mid) rest
          (by
            intro ch hch
            rcases List.mem_append.mp hch with h1 | h2
            · exact (by decide : ∀ c2 ∈ ("**Last 7d:**".data : List Char),
                isLineTerm c2 = false) ch h1
            · exact hmidterm ch h2)
          (fun z => statsLit_unparseable mid z)]
  · rw [if_neg hre]
    cases hm : findMatchFrom false true occHeaderRe [] b.data with
    | none =>
        have hrw : replaceFirstL false true occHeaderRe
            (statsLineStr stats ++ "\n\n## Occurrences").data b.data = b.data := by
          unfold replaceFirstL
          rw [hm]
        rw [string_mk_data, hrw]
    | some trip =>
        obtain ⟨pR, mt, rest⟩ := trip
        have hrw : replaceFirstL false true occHeaderRe
            (statsLineStr stats ++ "\n\n## Occurrences").data b.data =
            pR.reverse ++ processReplGo mt pR.reverse rest
              (statsLineStr stats ++ "\n\n## Occurrences").data ++ rest := by
          unfold replaceFirstL
          rw [hm]
        rw [string_mk_data, hrw]
        obtain ⟨skipped, hpR, hsplit⟩ :=
          findMatchFrom_decomp false true occHeaderRe b.data [] pR mt rest hm
        rw [List.append_assoc] at hsplit
        have hmh := findMatchFrom_matchHere false true occHeaderRe b.data [] pR mt rest hm
        have hhead : pR.head? = skipped.getLast? := by
          rw [hpR]
          simp
        rw [hhead] at hmh
        obtain ⟨hbol, hmt⟩ := matchHere_occHeaderRe_forward skipped.getLast? (mt ++ rest) rest hmh
        have hmt2 : mt = "## Occurrences".data := List.append_cancel_right hmt
        have hprev : pR.reverse = skipped := by
          rw [hpR]
          simp
        have hnod : ∀ c ∈ (statsLineStr stats ++ "\n\n## Occurrences").data, ¬c = '$' := by
          intro c hc
          rw [String.data_append] at hc
          rcases List.mem_append.mp hc with h1 | h2
          · exact (statsLine_chars stats c h1).2
          · exact (by decide : ∀ c2 ∈ ("\n\n## Occurrences".data : List Char),
              ¬c2 = '$') c h2
        rw [hprev, processRepl_no_dollar _ _ _ _ hnod, hsplit, List.append_assoc]
        have hsk : skipped = [] ∨ ∃ c, skipped.getLast? = some c ∧ isLineTerm c = true := by
          rcases hbol with hnone | hsome
          · exact Or.inl (List.getLast?_eq_none_iff.mp hnone)
          · exact Or.inr hsome
        rw [splitLines_split_at_bol skipped
            ((statsLineStr stats ++ "\n\n## Occurrences").data ++ rest) hsk,
          splitLines_split_at_bol skipped (mt ++ rest) hsk,
          List.filterMap_append, List.filterMap_append]
        congr 1
        rw [hmt2]
        rw [show ((statsLineStr stats ++ "\n\n## Occurrences").data : List Char) =
          (statsLineStr stats).data ++ "\n\n## Occurrences".data from String.data_append _ _]
        rw [List.append_assoc]
        rw [fm_prefixed_line (statsLineStr stats).data ("\n\n## Occurrences".data ++ rest)
          (fun c hc => (statsLine_chars stats c hc).1)
          (statsLine_unparseable stats)]
        rw [show (("\n\n## Occurrences".data : List Char) ++ rest) =
          '\n' :: ('\n' :: ("## Occurrences".data ++ rest)) from rfl]
        rw [splitLines_cons_term '\n' (by decide) ('\n' :: ("## Occurrences".data ++ rest)),
          List.tail_cons,
          splitLines_cons_term '\n' (by decide) ("## Occurrences".data ++ rest),
          filterMap_lineParse_nil_cons]

/-- A timestamp shape never starts with `[`. -/
theorem tsShape_bracket (cs : List Char) : tsShape ('[' :: cs) = false := by
  unfold tsShape
  split
  · rename_i y1 y2 y3 y4 s1 o1 o2 s2 d1 d2 tT h1 h2 c1 i1 i2 c2 e1 e2 dot f1 f2 f3 z heq
    rw [List.cons.injEq] at heq
    rw [← heq.1]
    simp [show isJsDigit '[' = false from by decide]
  · rfl

/-- A muted occurrence bullet (`- [muted] …`) is not parseable. -/
theorem lineParse_muted_prefix (l : List Char) :
    lineParse ('-' :: ' ' :: '[' :: l) = none := by
  show (if tsShape (('[' :: l).take 24) = true
    then some (parseIsoMillis (('[' :: l).take 24)) else none) = none
  rw [show ('[' :: l).take 24 = '[' :: l.take 23 from rfl, tsShape_bracket]
  simp

/-- **C3 (amended).** On an upsert against an existing record, the
statistics are recomputed from the parsed occurrence history of the body
written back — the stats-line rewrite adds and removes no occurrence
bullet, so the reported total and severity agree with what re-parsing the
stored body yields — but an occurrence appended with the muted-status
prefix is not parseable and is therefore excluded from every count. -/
theorem claim_C3_amended (issue : IssueRec) (label signature signatureHash : String)
    (occurrence : Occurrence) (ruleName : String) (notifyThreshold : Int) (now : Int)
    (store2 : Option IssueRec) (res : UpsertResult) (comments : List String)
    (h : upsertModel (some issue) label signature signatureHash occurrence ruleName
      notifyThreshold now = (store2, res, comments)) :
    ∃ issue2, store2 = some issue2 ∧
      res.totalOccurrences = (parseOccurrenceTimestamps issue2.body).length ∧
      res.severity = classifySeverity ruleName
        ((parseOccurrenceTimestamps issue2.body).filter
          (fun ts => tsGe ts (now - 7 * 86400000))).length ∧
      (issue.labels.contains "muted" = true →
        lineParse ("- [muted] " ++ occurrence.when ++ " — " ++ occurrence.runUrl ++
          (if occurrence.sourceRepo = "" then ""
           else " (" ++ occurrence.sourceRepo ++ ")") ++
          (if occurrence.explainerContext = "" then ""
           else "\n  > " ++ occurrence.explainerContext)).data = none) := by
  simp only [upsertModel] at h
  rw [Prod.mk.injEq, Prod.mk.injEq] at h
  obtain ⟨h1, h2, h3⟩ := h
  subst h1
  subst h2
  subst h3
  refine ⟨_, rfl, ?_, ?_, ?_⟩
  · show (parseOccurrenceTimestamps _).length = _
    dsimp only
    rw [parse_append_stats]
  · show classifySeverity ruleName _ = _
    dsimp only
    rw [parse_append_stats]
    rfl
  · intro hmut
    simp only [String.data_append]
    simp only [List.cons_append]
    exact lineParse_muted_prefix _

set_option maxHeartbeats 2000000 in
/-- **C3, refuted.** A muted record's upsert appends the `- [muted] …`
bullet to the log, yet the recomputed running total stays 1: the muted
occurrence is not parsed back out of the stored body, contradicting the
claim that muted occurrences are counted. -/
theorem claim_C3_counterexample :
    ((upsertModel (some ⟨7, "t", "## Occurrences\n- 2024-01-01T00:00:00.000Z u\n",
        ["muted"], true⟩) "ci-failure" "sig" "hash"
        ⟨"2024-01-02T00:00:00.000Z", "u2", "", ""⟩
        "ESLint" 0 0).2.1.totalOccurrences = 1 ∧
      includesL (((upsertModel (some ⟨7, "t",
          "## Occurrences\n- 2024-01-01T00:00:00.000Z u\n", ["muted"], true⟩)
          "ci-failure" "sig" "hash" ⟨"2024-01-02T00:00:00.000Z", "u2", "", ""⟩
          "ESLint" 0 0).1.map (fun i => i.body)).getD "").data
        "- [muted] 2024-01-02T00:00:00.000Z".data = true) := by
  decide

/-- **C3, exercised.** The amended statement instantiated at a concrete
muted record. -/
theorem claim_C3_witness :
    ∃ issue2,
      (upsertModel (some ⟨7, "t", "## Occurrences\n- 2024-01-01T00:00:00.000Z u\n",
        ["muted"], true⟩) "ci-failure" "sig" "hash"
        ⟨"2024-01-02T00:00:00.000Z", "u2", "", ""⟩ "ESLint" 0 0).1 = some issue2 ∧
      (upsertModel (some ⟨7, "t", "## Occurrences\n- 2024-01-01T00:00:00.000Z u\n",
        ["muted"], true⟩) "ci-failure" "sig" "hash"
        ⟨"2024-01-02T00:00:00.000Z", "u2", "", ""⟩ "ESLint" 0 0).2.1.totalOccurrences =
        (parseOccurrenceTimestamps issue2.body).length ∧
      (upsertModel (some ⟨7, "t", "## Occurrences\n- 2024-01-01T00:00:00.000Z u\n",
        ["muted"], true⟩) "ci-failure" "sig" "hash"
        ⟨"2024-01-02T00:00:00.000Z", "u2", "", ""⟩ "ESLint" 0 0).2.1.severity =
        classifySeverity "ESLint"
          ((parseOccurrenceTimestamps issue2.body).filter
            (fun ts => tsGe ts ((0 : Int) - 7 * 86400000))).length ∧
      ((["muted"] : List String).contains "muted" = true →
        lineParse ("- [muted] " ++ "2024-01-02T00:00:00.000Z" ++ " — " ++ "u2" ++
          (if ("" : String) = "" then "" else " (" ++ "" ++ ")") ++
          (if ("" : String) = "" then "" else "\n  > " ++ "")).data = none) :=
  claim_C3_amended
    ⟨7, "t", "## Occurrences\n- 2024-01-01T00:00:00.000Z u\n", ["muted"], true⟩
    "ci-failure" "sig" "hash" ⟨"2024-01-02T00:00:00.000Z", "u2", "", ""⟩ "ESLint" 0 0
    _ _ _ rfl

/-! ## Claim C7 — threshold one-shot -/

/-- The `severity:*` relabelling never touches the one-shot
`threshold-reached` marker. -/
theorem thresholdLabel_applySeverity (labels : List String) (sev : String) :
    "threshold-reached" ∈ applySeverityLabelModel labels sev ↔
      "threshold-reached" ∈ labels := by
  have hne : "threshold-reached" ≠ "severity:" ++ sev := by
    intro heq
    have h1 : ("threshold-reached" : String).data.head? =
        ("severity:" ++ sev).data.head? := by rw [heq]
    rw [String.data_append] at h1
    have h2 : (("severity:").data ++ sev.data).head? = some 's' := rfl
    rw [h2] at h1
    exact absurd h1 (by decide)
  have hmemkept : "threshold-reached" ∈
      labels.filter (fun l => !(isPrefL "severity:".data l.data && l != "severity:" ++ sev)) ↔
      "threshold-reached" ∈ labels := by
    rw [List.mem_filter]
    constructor
    · exact fun h => h.1
    · intro h
      refine ⟨h, ?_⟩
      have hp : isPrefL "severity:".data "threshold-reached".data = false := by decide
      simp [hp]
  simp only [applySeverityLabelModel]
  by_cases hc : (labels.any fun l => l == "severity:" ++ sev) = true
  · rw [if_pos hc]
    exact hmemkept
  · rw [if_neg hc]
    rw [List.mem_append, hmemkept]
    constructor
    · rintro (h | h)
      · exact h
      · simp at h
        exact absurd h hne
    · exact fun h => Or.inl h

set_option maxHeartbeats 4000000 in
/-- Claim C7 (amended): the threshold crossing is one-shot, but it can
only fire on the *found-record* path — the creating upsert always reports
`thresholdCrossed = false`, even when its single occurrence already
reaches the threshold.  A found-record upsert fires iff the threshold is
positive, the recomputed total reaches it, and the one-shot label is not
yet on the record; firing (or having fired) leaves the label on the
record, so no later upsert fires again.  With `notifyThreshold = 3`, the
third upsert against a fingerprint crosses and the fourth does not. -/
theorem claim_C7_amended :
    (∀ (label signature hash : String) (occ : Occurrence) (ruleName : String)
      (thr now : Int),
      (upsertModel none label signature hash occ ruleName thr now).2.1.thresholdReached = false) ∧
    (∀ (issue : IssueRec) (label signature hash : String) (occ : Occurrence)
      (ruleName : String) (thr now : Int),
      ((upsertModel (some issue) label signature hash occ ruleName thr now).2.1.thresholdReached = true ↔
        (0 < thr ∧
          thr ≤ ((upsertModel (some issue) label signature hash occ ruleName thr now).2.1.totalOccurrences : Int) ∧
          "threshold-reached" ∉ issue.labels)) ∧
      ((upsertModel (some issue) label signature hash occ ruleName thr now).2.1.thresholdReached = true →
        "threshold-reached" ∈
          (((upsertModel (some issue) label signature hash occ ruleName thr now).1.map IssueRec.labels).getD [])) ∧
      ("threshold-reached" ∈ issue.labels →
        (upsertModel (some issue) label signature hash occ ruleName thr now).2.1.thresholdReached = false ∧
        "threshold-reached" ∈
          (((upsertModel (some issue) label signature hash occ ruleName thr now).1.map IssueRec.labels).getD [])) ∧
      ("threshold-reached" ∉ issue.labels →
        (upsertModel (some issue) label signature hash occ ruleName thr now).2.1.thresholdReached = false →
        "threshold-reached" ∉
          (((upsertModel (some issue) label signature hash occ ruleName thr now).1.map IssueRec.labels).getD []))) ∧
    (let now := (parseIsoMillis "2024-01-10T00:00:00.000Z".data).getD 0
     let s0 := upsertModel none "L" "ESLint: e" "h"
       ⟨"2024-01-01T00:00:00.000Z", "u", "", ""⟩ "ESLint" 3 now
     let s1 := upsertModel s0.1 "L" "ESLint: e" "h"
       ⟨"2024-01-02T00:00:00.000Z", "u", "", ""⟩ "ESLint" 3 now
     let s2 := upsertModel s1.1 "L" "ESLint: e" "h"
       ⟨"2024-01-03T00:00:00.000Z", "u", "", ""⟩ "ESLint" 3 now
     let s3 := upsertModel s2.1 "L" "ESLint: e" "h"
       ⟨"2024-01-04T00:00:00.000Z", "u", "", ""⟩ "ESLint" 3 now
     s0.2.1.thresholdReached = false ∧ s0.2.1.totalOccurrences = 1 ∧
     s1.2.1.thresholdReached = false ∧ s1.2.1.totalOccurrences = 2 ∧
     s2.2.1.thresholdReached = true ∧ s2.2.1.totalOccurrences = 3 ∧
     s3.2.1.thresholdReached = false ∧ s3.2.1.totalOccurrences = 4) := by
  refine ⟨fun _ _ _ _ _ _ _ => rfl, ?_, by decide⟩
  intro issue label signature hash occ ruleName thr now
  have hcm : ∀ l : List String, ∀ a : String, l.contains a = true ↔ a ∈ l := by
    intro l a
    simp [List.contains_eq_any_beq]
  have hiff : (upsertModel (some issue) label signature hash occ ruleName thr now).2.1.thresholdReached = true ↔
      (0 < thr ∧
        thr ≤ ((upsertModel (some issue) label signature hash occ ruleName thr now).2.1.totalOccurrences : Int) ∧
        "threshold-reached" ∉ issue.labels) := by
    simp only [upsertModel]
    simp [and_assoc, hcm]
  refine ⟨hiff, ?_, ?_, ?_⟩
  · simp only [upsertModel, Option.map_some', Option.getD_some]
    intro h
    rw [if_pos h]
    simp
  · intro hmem
    have hfalse : (upsertModel (some issue) label signature hash occ ruleName thr now).2.1.thresholdReached = false := by
      cases hf : (upsertModel (some issue) label signature hash occ ruleName thr now).2.1.thresholdReached
      · rfl
      · exact absurd (hiff.mp hf).2.2 (not_not_intro hmem)
    refine ⟨hfalse, ?_⟩
    have hff : (upsertModel (some issue) label signature hash occ ruleName thr now).2.1.thresholdReached ≠ true := by
      simp [hfalse]
    simp only [upsertModel, Option.map_some', Option.getD_some] at hff ⊢
    rw [if_neg hff]
    exact (thresholdLabel_applySeverity _ _).mpr hmem
  · intro hmem hfalse
    have hff : (upsertModel (some issue) label signature hash occ ruleName thr now).2.1.thresholdReached ≠ true := by
      simp [hfalse]
    simp only [upsertModel, Option.map_some', Option.getD_some] at hff ⊢
    rw [if_neg hff]
    exact fun hx => hmem ((thresholdLabel_applySeverity _ _).mp hx)

/-- Counterexample to C7 as stated: with `notifyThreshold = 1` the first
(creating) upsert brings the record's total occurrence count to `1 ≥ 1`,
yet reports `thresholdCrossed = false` — the create path hardcodes it. -/
theorem claim_C7_counterexample :
    (upsertModel none "L" "S" "h" ⟨"2024-01-01T00:00:00.000Z", "u", "", ""⟩
        "ESLint" 1 0).2.1.totalOccurrences = 1 ∧
    (1 : Int) ≤ ((upsertModel none "L" "S" "h" ⟨"2024-01-01T00:00:00.000Z", "u", "", ""⟩
        "ESLint" 1 0).2.1.totalOccurrences : Int) ∧
    (upsertModel none "L" "S" "h" ⟨"2024-01-01T00:00:00.000Z", "u", "", ""⟩
        "ESLint" 1 0).2.1.thresholdReached = false := by
  exact ⟨rfl, by decide, rfl⟩

set_option maxHeartbeats 1000000 in
/-- Witness for C7 (amended): a found-record upsert that lifts the total
to the threshold with the one-shot label absent reports the crossing. -/
theorem claim_C7_witness :
    (upsertModel (some ⟨1, "t",
        "x\n## Occurrences\n- 2024-01-02T00:00:00.000Z — u\n- 2024-01-01T00:00:00.000Z — u\n",
        ["L"], true⟩) "L" "S" "h" ⟨"2024-01-03T00:00:00.000Z", "u", "", ""⟩
        "ESLint" 3 0).2.1.thresholdReached = true := by
  exact ((claim_C7_amended.2.1 ⟨1, "t",
      "x\n## Occurrences\n- 2024-01-02T00:00:00.000Z — u\n- 2024-01-01T00:00:00.000Z — u\n",
      ["L"], true⟩ "L" "S" "h" ⟨"2024-01-03T00:00:00.000Z", "u", "", ""⟩
      "ESLint" 3 0).1).mpr ⟨by decide, by decide, by decide⟩

/-! ## Claim C4 — sweep failure isolation -/

/-- Claim C4 fails on the code: the `for` loop of `autoCloseQuietIssues`
has no per-record error handling, so one record's store failure aborts the
whole sweep.  With a store whose `issues.get` throws for record 1 while
record 2 is stale and closable: record 2 alone is commented and closed,
but in the batch `[1, 2]` the sweep propagates the error having processed
nothing, and in `[2, 1, 2]` everything after the failing record is left
untouched. -/
theorem claim_C4_bug :
    (let st : SweepStore :=
      { getBody := fun n => if n = 1 then .error "boom"
          else .ok "x\n## Occurrences\n- 2023-11-01T00:00:00.000Z — u\n",
        findFixing := fun _ => .ok [],
        postComment := fun _ _ => .ok (),
        closeIssue := fun _ => .ok () }
     let now := (parseIsoMillis "2024-01-10T00:00:00.000Z".data).getD 0
     autoCloseModel st 30 now [2] =
       (.ok [2], [SweepAction.commented 2 "Pattern inactive for 70 days — closing.",
                  SweepAction.closedIssue 2]) ∧
     autoCloseModel st 30 now [1, 2] = (.error "boom", []) ∧
     autoCloseModel st 30 now [2, 1, 2] =
       (.error "boom", [SweepAction.commented 2 "Pattern inactive for 70 days — closing.",
                        SweepAction.closedIssue 2])) := by
  exact ⟨rfl, rfl, rfl⟩

end CIFA
